import Mathlib

/-!
Verification development for the iterative-refinement control loop of the
playing-devils-advocate repository: the structured-output parser
(src/utils/parsing.py), the stopping policy (src/agents/stopping_agent.py)
and the critique scoring/ranking engine (src/agents/critique_eval_agent.py)
are embedded shallowly and their specified properties are settled.

Modelling conventions:
* Python floats are modelled as rationals; all score arithmetic in the code
  is plain + and *, which the claims state exactly, so the field choice is
  just exact arithmetic.
* Python dicts are modelled as association lists (insertion order is
  iteration order, as in CPython), or as functions with a default where the
  code only ever uses get with a default.
* JSON values are modelled by the inductive type Json below.  Numbers are
  modelled as integers (the code paths under verification only ever consume
  integer severities; fractional literals are outside the model), objects as
  ordered key-value lists.
* The external text-generation calls are modelled as oracle function
  parameters; a failing call (or unparseable response) is an oracle
  returning none.
-/

set_option maxHeartbeats 1000000

/-! ### JSON values -/

/-- JSON value shallowly embedding the values produced by json.loads
(numbers restricted to integers, objects kept as ordered pair lists). -/
inductive Json where
  | null : Json
  | bool : Bool → Json
  | num : Int → Json
  | str : String → Json
  | arr : List Json → Json
  | obj : List (String × Json) → Json
deriving Repr

/-- Whitespace characters skipped by the json module scanner. -/
def jsonWs (c : Char) : Bool :=
  c = ' ' || c = '\t' || c = '\n' || c = '\r'

/-- Drop leading JSON whitespace. -/
def skipWs : List Char → List Char
  | [] => []
  | c :: t => if jsonWs c then skipWs t else c :: t

def isDigitCh (c : Char) : Bool := '0' ≤ c && c ≤ '9'

def digitVal (c : Char) : Nat := c.toNat - 48

def digChar (n : Nat) : Char := Char.ofNat (48 + n)

/-- Longest digit prefix of a character list, with the remainder. -/
def spanDigits : List Char → List Char × List Char
  | [] => ([], [])
  | c :: t =>
    if isDigitCh c then
      let p := spanDigits t
      (c :: p.1, p.2)
    else ([], c :: t)

/-- Value of a digit list read most-significant first, on top of an
accumulator. -/
def valOfDigitsAcc (acc : Nat) : List Char → Nat
  | [] => acc
  | c :: t => valOfDigitsAcc (10 * acc + digitVal c) t

/-- Fueled digit expansion; the fuel argument only bounds recursion depth
so that the definition reduces by iota in the kernel. -/
def natDigitsAux : Nat → Nat → List Char
  | 0, _ => []
  | fuel + 1, n =>
    if n < 10 then [digChar n]
    else natDigitsAux fuel (n / 10) ++ [digChar (n % 10)]

/-- Decimal digits of a natural number, most significant first. -/
def natDigits (n : Nat) : List Char := natDigitsAux (n + 1) n

/-- Token of the JSON number grammar for integers: 0 or [1-9][0-9]*,
exactly the maximal match taken by the json module number regex. -/
def parseNatTok : List Char → Option (Nat × List Char)
  | [] => none
  | c :: rest =>
    if c = '0' then some (0, rest)
    else if isDigitCh c then
      let p := spanDigits rest
      some (valOfDigitsAcc (digitVal c) p.1, p.2)
    else none

/-- Integer number parsing (optional leading minus). -/
def parseNumber (s : List Char) : Option (Int × List Char) :=
  match s with
  | '-' :: rest => (parseNatTok rest).map (fun p => (-(p.1 : Int), p.2))
  | _ => (parseNatTok s).map (fun p => ((p.1 : Int), p.2))

def hexDigVal (c : Char) : Option Nat :=
  if '0' ≤ c ∧ c ≤ '9' then some (c.toNat - 48)
  else if 'a' ≤ c ∧ c ≤ 'f' then some (c.toNat - 87)
  else if 'A' ≤ c ∧ c ≤ 'F' then some (c.toNat - 55)
  else none

def consStr (c : Char) (o : Option (List Char × List Char)) :
    Option (List Char × List Char) :=
  o.map (fun p => (c :: p.1, p.2))

/-- Body of a JSON string after the opening quote, in strict mode: raw
control characters are rejected, the standard escapes are decoded. -/
def parseStringBody (s : List Char) : Option (List Char × List Char) :=
  match s with
  | [] => none
  | c :: rest =>
    if c = '"' then some ([], rest)
    else if c = '\\' then
      match rest with
      | [] => none
      | e :: r =>
        if e = '"' then consStr '"' (parseStringBody r)
        else if e = '\\' then consStr '\\' (parseStringBody r)
        else if e = '/' then consStr '/' (parseStringBody r)
        else if e = 'b' then consStr (Char.ofNat 8) (parseStringBody r)
        else if e = 'f' then consStr (Char.ofNat 12) (parseStringBody r)
        else if e = 'n' then consStr '\n' (parseStringBody r)
        else if e = 'r' then consStr '\r' (parseStringBody r)
        else if e = 't' then consStr '\t' (parseStringBody r)
        else if e = 'u' then
          match r with
          | h1 :: h2 :: h3 :: h4 :: r2 =>
            (hexDigVal h1).bind fun v1 =>
              (hexDigVal h2).bind fun v2 =>
                (hexDigVal h3).bind fun v3 =>
                  (hexDigVal h4).bind fun v4 =>
                    consStr (Char.ofNat (((v1 * 16 + v2) * 16 + v3) * 16 + v4))
                      (parseStringBody r2)
          | _ => none
        else none
    else if c.toNat < 32 then none
    else consStr c (parseStringBody rest)
termination_by structural s

mutual

/-- Fueled recursive-descent JSON value parser mirroring json.loads. -/
def parseVal : Nat → List Char → Option (Json × List Char)
  | 0, _ => none
  | fuel + 1, s =>
    match skipWs s with
    | [] => none
    | c :: t =>
      if c = 'n' then
        match t with
        | 'u' :: 'l' :: 'l' :: r => some (.null, r)
        | _ => none
      else if c = 't' then
        match t with
        | 'r' :: 'u' :: 'e' :: r => some (.bool true, r)
        | _ => none
      else if c = 'f' then
        match t with
        | 'a' :: 'l' :: 's' :: 'e' :: r => some (.bool false, r)
        | _ => none
      else if c = '"' then
        (parseStringBody t).map (fun p => (.str (String.mk p.1), p.2))
      else if c = '[' then
        match skipWs t with
        | ']' :: r => some (.arr [], r)
        | t2 =>
          match parseVal fuel t2 with
          | none => none
          | some (v, r) =>
            match parseArrTail fuel r with
            | none => none
            | some (vs, r2) => some (.arr (v :: vs), r2)
      else if c = Char.ofNat 123 then
        match skipWs t with
        | c2 :: r =>
          if c2 = Char.ofNat 125 then some (.obj [], r)
          else
            match parseMember fuel (c2 :: r) with
            | none => none
            | some (ms, r2) => some (.obj ms, r2)
        | [] => none
      else if c = '-' || isDigitCh c then
        (parseNumber (c :: t)).map (fun p => (.num p.1, p.2))
      else none

/-- Array continuation after one parsed element: comma-separated values up
to the closing bracket. -/
def parseArrTail : Nat → List Char → Option (List Json × List Char)
  | 0, _ => none
  | fuel + 1, s =>
    match skipWs s with
    | ']' :: r => some ([], r)
    | ',' :: r =>
      match parseVal fuel r with
      | none => none
      | some (v, r2) => (parseArrTail fuel r2).map (fun p => (v :: p.1, p.2))
    | _ => none

/-- One key-value member followed by the object continuation. -/
def parseMember : Nat → List Char → Option (List (String × Json) × List Char)
  | 0, _ => none
  | fuel + 1, s =>
    match skipWs s with
    | '"' :: t =>
      match parseStringBody t with
      | none => none
      | some (k, r) =>
        match skipWs r with
        | ':' :: r2 =>
          match parseVal fuel r2 with
          | none => none
          | some (v, r3) =>
            match parseObjTail fuel r3 with
            | none => none
            | some (ms, r4) => some ((String.mk k, v) :: ms, r4)
        | _ => none
    | _ => none

/-- Object continuation after one member: comma then next member, or the
closing brace. -/
def parseObjTail : Nat → List Char → Option (List (String × Json) × List Char)
  | 0, _ => none
  | fuel + 1, s =>
    match skipWs s with
    | ',' :: r => parseMember fuel r
    | c :: r => if c = Char.ofNat 125 then some ([], r) else none
    | [] => none

end

/-- Model of json.loads: skip whitespace, parse one value, allow trailing
whitespace only. -/
def loads (s : List Char) : Option Json :=
  match parseVal (s.length + 1) s with
  | some (v, rest) => if skipWs rest = [] then some v else none
  | none => none

/-! ### A JSON serializer

The round-trip claim about the structured-output parser quantifies over a
serialized JSON value; the serializer below produces compact standard JSON
(string escapes for quote, backslash and control characters). -/

def hexDig (n : Nat) : Char := if n < 10 then digChar n else Char.ofNat (87 + n)

/-- Escape one character of a JSON string. -/
def escChar (c : Char) : List Char :=
  if c = '"' then ['\\', '"']
  else if c = '\\' then ['\\', '\\']
  else if c.toNat < 32 then
    ['\\', 'u', '0', '0', hexDig (c.toNat / 16), hexDig (c.toNat % 16)]
  else [c]

def serStrBody : List Char → List Char
  | [] => []
  | c :: t => escChar c ++ serStrBody t

def serStr (s : String) : List Char := '"' :: serStrBody s.toList ++ ['"']

def serInt (n : Int) : List Char :=
  if n < 0 then '-' :: natDigits (-n).toNat else natDigits n.toNat

mutual

/-- Compact serialization of a JSON value. -/
def serJ : Json → List Char
  | .null => "null".toList
  | .bool true => "true".toList
  | .bool false => "false".toList
  | .num n => serInt n
  | .str s => serStr s
  | .arr [] => ['[', ']']
  | .arr (v :: vs) => '[' :: (serJ v ++ serA vs)
  | .obj [] => [Char.ofNat 123, Char.ofNat 125]
  | .obj (m :: ms) => Char.ofNat 123 :: serM m ms
termination_by x => sizeOf x
decreasing_by all_goals (simp_wf <;> omega)

/-- Serialization of the tail of an array, including the closing bracket. -/
def serA : List Json → List Char
  | [] => [']']
  | v :: vs => ',' :: (serJ v ++ serA vs)
termination_by vs => sizeOf vs
decreasing_by all_goals (simp_wf <;> omega)

/-- Serialization of one object member followed by the remaining members. -/
def serM : String × Json → List (String × Json) → List Char
  | (k, v), ms => serStr k ++ ':' :: (serJ v ++ serT ms)
termination_by m ms => sizeOf m + sizeOf ms
decreasing_by all_goals (simp_wf <;> omega)

/-- Serialization of the remaining members, including the closing brace. -/
def serT : List (String × Json) → List Char
  | [] => [Char.ofNat 125]
  | m :: ms => ',' :: serM m ms
termination_by ms => sizeOf ms
decreasing_by all_goals (simp_wf <;> omega)

end

mutual

/-- Fuel lower bound under which parseVal recovers a serialized value. -/
def sizeJ : Json → Nat
  | .null => 1
  | .bool _ => 1
  | .num _ => 1
  | .str _ => 1
  | .arr [] => 1
  | .arr (v :: vs) => 1 + sizeJ v + sizeA vs
  | .obj [] => 1
  | .obj (m :: ms) => 1 + sizeM m ms
termination_by x => sizeOf x
decreasing_by all_goals (simp_wf <;> omega)

def sizeA : List Json → Nat
  | [] => 1
  | v :: vs => 1 + sizeJ v + sizeA vs
termination_by vs => sizeOf vs
decreasing_by all_goals (simp_wf <;> omega)

def sizeM : String × Json → List (String × Json) → Nat
  | (_, v), ms => 1 + sizeJ v + sizeT ms
termination_by m ms => sizeOf m + sizeOf ms
decreasing_by all_goals (simp_wf <;> omega)

def sizeT : List (String × Json) → Nat
  | [] => 1
  | m :: ms => 1 + sizeM m ms
termination_by ms => sizeOf ms
decreasing_by all_goals (simp_wf <;> omega)

end

/-! ### The structured-output parser, src/utils/parsing.py

The function under verification is its pure core: given the raw model
output it tries, in order, fenced-block extraction, direct parsing, a
first-to-last brace scan, and a trailing-object regex.  The two regular
expressions are modelled by explicit scanning functions that implement the
documented leftmost/lazy matching of the re module on the two concrete
patterns used by the code. -/

/-- Whitespace in the sense of Python str.strip and the regex class. -/
def pySpace (c : Char) : Bool :=
  c = ' ' || c = '\t' || c = '\n' || c = '\r' || c = Char.ofNat 11 || c = Char.ofNat 12

/-- Model of Python str.strip(). -/
def pyStrip (l : List Char) : List Char :=
  ((l.dropWhile pySpace).reverse.dropWhile pySpace).reverse

def btk : Char := Char.ofNat 96

/-- Split a text at the first triple-backtick: returns the part before it
and the part after it. -/
def splitTB : List Char → Option (List Char × List Char)
  | a :: b :: c :: t =>
    if a = btk ∧ b = btk ∧ c = btk then some ([], t)
    else
      match splitTB (b :: c :: t) with
      | some p => some (a :: p.1, p.2)
      | none => none
  | _ => none

/-- Case-insensitive test for a json language tag directly after the
opening fence. -/
def jsonTag : List Char → Bool
  | a :: b :: c :: d :: _ =>
    a.toLower = 'j' && b.toLower = 's' && c.toLower = 'o' && d.toLower = 'n'
  | _ => false

/-- Model of the fenced-block regex search: leftmost opening fence,
optional json tag, lazily matched body up to the next fence; the result is
returned already stripped, as the code strips the captured group. -/
def findFence (s : List Char) : Option (List Char) :=
  match splitTB s with
  | none => none
  | some p =>
    let r2 := if jsonTag p.2 then p.2.drop 4 else p.2
    match splitTB r2 with
    | none => none
    | some q => some (pyStrip q.1)

/-- Model of the brace-scan strategy: substring from the first opening to
the last closing brace, when the latter comes after the former. -/
def braceScan (s : List Char) : Option (List Char) :=
  match s.findIdx? (fun c => c = Char.ofNat 123) with
  | none => none
  | some i =>
    match s.reverse.findIdx? (fun c => c = Char.ofNat 125) with
    | none => none
    | some j =>
      let e := s.length - 1 - j
      if i < e then some ((s.take (e + 1)).drop i) else none

/-- Model of the trailing-object regex search on the stripped text: from
the first opening brace, provided the last closing brace is after it and is
followed only by whitespace. -/
def trailingObj (t : List Char) : Option (List Char) :=
  match t.findIdx? (fun c => c = Char.ofNat 123) with
  | none => none
  | some i =>
    match t.reverse.findIdx? (fun c => c = Char.ofNat 125) with
    | none => none
    | some j =>
      let e := t.length - 1 - j
      if i < e ∧ (t.drop (e + 1)).all pySpace then some (t.drop i) else none

/-- Embedding of the extraction function of src/utils/parsing.py: each
strategy is attempted in order and the first successful parse wins; none
models the final ValueError. -/
def extract_json (s : List Char) : Option Json :=
  match (findFence s).bind loads with
  | some v => some v
  | none =>
    match loads s with
    | some v => some v
    | none =>
      match (braceScan s).bind loads with
      | some v => some v
      | none => (trailingObj (pyStrip s)).bind loads

/-! ### Personas and the stopping policy, src/agents/stopping_agent.py

The repository has no data/student_profiles.json, so the default persona
list of src/agents/common.py is in effect. -/

def PERSONAS : List String :=
  ["advanced", "struggling", "visual", "practical", "theoretical"]

/-- Embedding of the StopConfig dataclass of src/agents/common.py with its
default values. -/
structure StopConfig where
  threshold : Rat := 7 / 10
  max_iterations : Int := 5
  stagnation_window : Int := 2
  stagnation_min_improvement : Rat := 1 / 50
deriving Repr, DecidableEq

instance : Inhabited StopConfig := ⟨{}⟩

/-- The decision dict returned by the stopping policy. -/
structure Decision where
  decision : String
  reason : String
deriving Repr, DecidableEq

/-- Truncation toward zero, the behaviour of Python int() on a float. -/
def pyInt (q : Rat) : Int := if 0 ≤ q then q.floor else q.ceil

/-- Model of scores.get(p, 0): dict lookup with default.  The `or 0` in the
code only replaces falsy values (0.0 or None) by 0 and is the identity on
the rational model. -/
def lookupD (scores : List (String × Rat)) (p : String) : Rat :=
  (scores.lookup p).getD 0

/-- The integer 1-3 scale values derived from a score dict, one per
persona, as computed by the two comprehensions in stopping_decision. -/
def scaleVals (scores : List (String × Rat)) : List Int :=
  PERSONAS.map (fun p => pyInt (lookupD scores p))

def continueDecision : Decision :=
  ⟨"CONTINUE", "Multiple strong or mixed signals present; continue refining."⟩

def stagnationReason (w : Int) : String :=
  "Stagnation: no score 3 for " ++ toString w ++ " consecutive rounds."

/-- Embedding of stopping_decision of src/agents/stopping_agent.py. -/
def stopping_decision (scores : List (String × Rat))
    (history_scores : List (List (String × Rat))) (iteration : Int)
    (config : Option StopConfig) : Decision :=
  let cfg := config.getD {}
  if cfg.max_iterations ≤ iteration then
    ⟨"STOP", "Max iterations reached."⟩
  else
    let vals := scaleVals scores
    if vals.all (fun v => v = 1) then
      ⟨"STOP", "All personas scored 1 (no actionable feedback)."⟩
    else
      let count3 := (vals.filter (fun v => v = 3)).length
      if count3 = 0 ∧ 0 < cfg.stagnation_window then
        let window : Int := min cfg.stagnation_window (history_scores.length : Int)
        let recent := history_scores.drop (history_scores.length - window.toNat)
        let no3_prev :=
          recent.all (fun past => (scaleVals past).all (fun v => v ≠ 3))
        if no3_prev ∧ window = cfg.stagnation_window then
          ⟨"STOP", stagnationReason cfg.stagnation_window⟩
        else continueDecision
      else continueDecision

/-- State fields read by stopper_node, with the defaults of state.get
folded in.  Raw history entries are reduced to their reward_scores field:
none models an entry whose reward_scores is absent or not a dict. -/
structure NodeState where
  reward_scores : List (String × Rat)
  history : List (Option (List (String × Rat)))
  iteration : Int
  threshold : Rat := 7 / 10
  max_iters : Int := 5
  stagnation_window : Int := 2
  student_responses : List (String × List (String × Json))

/-- The all-empty-feedback test of stopper_node: every persona's response
dict (default empty) has length zero. -/
def allEmptyResponses (st : NodeState) : Bool :=
  PERSONAS.all (fun p => ((st.student_responses.lookup p).getD []).isEmpty)

/-- Embedding of stopper_node of src/agents/stopping_agent.py. -/
def stopper_node (st : NodeState) : Decision :=
  let history_scores :=
    st.history.filterMap (fun h =>
      match h with
      | some d => if d.isEmpty then none else some d
      | none => none)
  let cfg : StopConfig :=
    { threshold := st.threshold, max_iterations := st.max_iters,
      stagnation_window := st.stagnation_window }
  if allEmptyResponses st then
    ⟨"STOP", "All personas returned empty feedback."⟩
  else stopping_decision st.reward_scores history_scores st.iteration (some cfg)

/-! ### The critique scoring and ranking engine,
src/agents/critique_eval_agent.py

The two judging calls go to the external text-generation client; they are
modelled by oracle parameters.  A severity oracle returns the parsed JSON
object of the judge response, none standing for a raised error anywhere in
the call-and-parse sequence (the code then propagates the error).  A
uniqueness oracle returns the already-parsed and float-converted uniqueness
value, none standing for any exception inside the try block (the code then
falls back to the difflib similarity heuristic).  The difflib ratio itself
is stdlib code external to the repository and is a function parameter. -/

structure Feedback where
  issue : Option String
  quote : Option String
deriving Repr, DecidableEq

/-- A judged critique entry, the dict built by _score_and_rank_critiques
(rank is 0 until the ranking pass assigns it). -/
structure Scored where
  persona : String
  feedback : Feedback
  score : Rat
  validated_severity : Int
  severity_justification : String
  uniqueness : Rat
  uniqueness_bonus : Rat
  rank : Nat
deriving Repr, DecidableEq

def SevOracle : Type :=
  String → String → Option String → Option (List (String × Json))

def UniqOracle : Type := String → List String → Option Rat

/-- Python str() of a parsed JSON value, used on the justification field;
the container cases are approximated by JSON serialization (no claim
depends on them). -/
def pyStr : Json → String
  | .str s => s
  | .num n => toString n
  | .bool true => "True"
  | .bool false => "False"
  | .null => "None"
  | v => String.mk (serJ v)

def pyStripStr (s : String) : String := String.mk (pyStrip s.toList)

/-- Python int() applied to a parsed JSON value; none models a raised
conversion error. -/
def pyJsonToInt : Json → Option Int
  | .num n => some n
  | .bool b => some (if b then 1 else 0)
  | .str s => s.toInt?
  | _ => none

/-- The validation part of _judge_severity: read the severity key with
default 1, convert to int, clamp values outside the scale to 1, and strip
the justification. -/
def severityFromParsed (parsed : List (String × Json)) : Option (Int × String) :=
  match pyJsonToInt ((parsed.lookup "severity").getD (.num 1)) with
  | none => none
  | some s0 =>
    let s := if s0 = 0 ∨ s0 = 1 ∨ s0 = 2 ∨ s0 = 3 then s0 else 1
    some (s, pyStripStr (pyStr ((parsed.lookup "justification").getD (.str ""))))

/-- Embedding of _judge_severity: the oracle call followed by validation;
none models the raised error that aborts the round. -/
def judge_severity (sev : SevOracle) (issue explanation : String)
    (quote : Option String) : Option (Int × String) :=
  (sev issue explanation quote).bind severityFromParsed

def pyLower (s : String) : String := String.map Char.toLower s

/-- Python max over a list with an explicit default for the empty list. -/
def pyMaxD (l : List Rat) (d : Rat) : Rat :=
  match l with
  | [] => d
  | a :: t => t.foldl max a

/-- The deterministic fallback of _calculate_uniqueness: one minus the
largest difflib similarity ratio against the lowercased other issues. -/
def fallbackUniqueness (sim : String → String → Rat) (issue : String)
    (others : List String) : Rat :=
  1 - pyMaxD (others.map (fun o => sim (pyLower issue) (pyLower o))) 0

/-- Embedding of _calculate_uniqueness, returning the uniqueness value and
the number of judging calls issued. -/
def calculate_uniqueness (sim : String → String → Rat) (uniq : UniqOracle)
    (issue : String) (others : List String) : Rat × Nat :=
  if issue = "" ∨ others = [] then (1, 0)
  else
    match uniq issue others with
    | some u => (max 0 (min 1 u), 1)
    | none => (fallbackUniqueness sim issue others, 1)

/-- Scoring of a single persona inside the loop of
_score_and_rank_critiques, returning the judged entry and the number of
judging calls issued for that persona; none models a raised severity-judge
error. -/
def scoreOne (sev : SevOracle) (uniq : UniqOracle)
    (sim : String → String → Rat) (responses : List (String × Feedback))
    (explanation : String) (persona : String) (fb : Feedback) :
    Option (Scored × Nat) :=
  match fb.issue with
  | none => some (⟨persona, fb, 0, 0, "No issue provided", 0, 0, 0⟩, 0)
  | some issue =>
    match judge_severity sev issue explanation fb.quote with
    | none => none
    | some sj =>
      let other_issues := responses.filterMap (fun pf =>
        if pf.1 ≠ persona then pf.2.issue else none)
      let u := calculate_uniqueness sim uniq issue other_issues
      some (⟨persona, fb, (sj.1 : Rat) + u.1 * 3, sj.1, sj.2, u.1, u.1 * 3, 0⟩,
        1 + u.2)

/-- The scoring loop over all personas, in dict iteration order; the total
judge-call count is accumulated. -/
def scoreAllGo (sev : SevOracle) (uniq : UniqOracle)
    (sim : String → String → Rat) (full : List (String × Feedback))
    (explanation : String) : List (String × Feedback) → Option (List Scored × Nat)
  | [] => some ([], 0)
  | (p, fb) :: rest =>
    match scoreOne sev uniq sim full explanation p fb with
    | none => none
    | some sc =>
      match scoreAllGo sev uniq sim full explanation rest with
      | none => none
      | some lr => some (sc.1 :: lr.1, sc.2 + lr.2)

def scoreAll (sev : SevOracle) (uniq : UniqOracle)
    (sim : String → String → Rat) (responses : List (String × Feedback))
    (explanation : String) : Option (List Scored × Nat) :=
  scoreAllGo sev uniq sim responses explanation responses

/-- The comparison used by scored.sort(key score, reverse true); Python
list.sort is stable, so the model is a stable merge sort under the
greater-or-equal-score relation. -/
def scoreGE (a b : Scored) : Bool := b.score ≤ a.score

/-- Rank assignment via enumerate(scored, 1). -/
def assignRanks : Nat → List Scored → List Scored
  | _, [] => []
  | k, x :: xs => { x with rank := k } :: assignRanks (k + 1) xs

/-- Embedding of _score_and_rank_critiques: score every persona, sort by
descending score with a stable sort, and assign 1-based ranks.  The
question argument is unused by the code, as here. -/
def score_and_rank_critiques (sev : SevOracle) (uniq : UniqOracle)
    (sim : String → String → Rat) (responses : List (String × Feedback))
    (question explanation : String) : Option (List Scored) :=
  match scoreAll sev uniq sim responses explanation with
  | none => none
  | some lr => some (assignRanks 1 (lr.1.mergeSort scoreGE))

/-! ### Score history, _update_score_history -/

structure ScoreHistoryEntry where
  iteration : Int
  score : Rat
  rank : Nat
  issue : String
  validated_severity : Int
  severity_justification : String
  uniqueness : Rat
  uniqueness_bonus : Rat
deriving Repr, DecidableEq

/-- The history record appended for one judged entry; a falsy issue (None
or the empty string) is recorded as "No issue found", after the
item feedback get-or expression. -/
def entryOf (iter : Int) (item : Scored) : ScoreHistoryEntry :=
  { iteration := iter, score := item.score, rank := item.rank,
    issue := match item.feedback.issue with
             | some s => if s = "" then "No issue found" else s
             | none => "No issue found",
    validated_severity := item.validated_severity,
    severity_justification := item.severity_justification,
    uniqueness := item.uniqueness,
    uniqueness_bonus := item.uniqueness_bonus }

/-- One mutation step of the history dict, modelled functionally: the
current persona's list gets the new entry appended, every other key is
untouched. -/
def historyStep (iter : Int) (h : String → List ScoreHistoryEntry)
    (item : Scored) : String → List ScoreHistoryEntry :=
  fun p => if p = item.persona then h p ++ [entryOf iter item] else h p

/-- Embedding of _update_score_history: fold the mutation over the scored
list; a persona absent from the dict starts from the empty list, which the
total function model gives for free. -/
def update_score_history (hist : String → List ScoreHistoryEntry)
    (iter : Int) (scored : List Scored) : String → List ScoreHistoryEntry :=
  scored.foldl (historyStep iter) hist

/-! ### Helper lemmas -/

theorem scoreOne_fields {sev : SevOracle} {uniq : UniqOracle}
    {sim : String → String → Rat} {resp : List (String × Feedback)}
    {expl p fb x n} (h : scoreOne sev uniq sim resp expl p fb = some (x, n)) :
    x.persona = p ∧ x.feedback = fb ∧ x.rank = 0 := by
  unfold scoreOne at h
  cases hfb : fb.issue with
  | none =>
    rw [hfb] at h
    simp only [Option.some.injEq, Prod.mk.injEq] at h
    exact ⟨by rw [← h.1], by rw [← h.1], by rw [← h.1]⟩
  | some issue =>
    rw [hfb] at h
    dsimp only at h
    cases hj : judge_severity sev issue expl fb.quote with
    | none => rw [hj] at h; exact absurd h (by simp)
    | some sj =>
      rw [hj] at h
      simp only [Option.some.injEq, Prod.mk.injEq] at h
      exact ⟨by rw [← h.1], by rw [← h.1], by rw [← h.1]⟩

theorem scoreOne_null_fields {sev : SevOracle} {uniq : UniqOracle}
    {sim : String → String → Rat} {resp : List (String × Feedback)}
    {expl p fb x n} (h : scoreOne sev uniq sim resp expl p fb = some (x, n))
    (hi : x.feedback.issue = none) :
    x.validated_severity = 0 ∧ x.uniqueness = 0 ∧ x.score = 0 ∧ n = 0 := by
  have hxfb : x.feedback = fb := (scoreOne_fields h).2.1
  have hfb : fb.issue = none := by rw [← hxfb]; exact hi
  unfold scoreOne at h
  rw [hfb] at h
  simp only [Option.some.injEq, Prod.mk.injEq] at h
  exact ⟨by rw [← h.1], by rw [← h.1], by rw [← h.1], h.2.symm⟩

theorem scoreAllGo_mem {sev : SevOracle} {uniq : UniqOracle}
    {sim : String → String → Rat} {full : List (String × Feedback)} {expl}
    {l : List (String × Feedback)} {l' : List Scored} {n}
    (h : scoreAllGo sev uniq sim full expl l = some (l', n)) :
    ∀ y ∈ l', ∃ p fb c, (p, fb) ∈ l ∧
      scoreOne sev uniq sim full expl p fb = some (y, c) := by
  induction l generalizing l' n with
  | nil =>
    simp only [scoreAllGo, Option.some.injEq, Prod.mk.injEq] at h
    intro y hy
    rw [← h.1] at hy
    exact absurd hy (List.not_mem_nil y)
  | cons a t ih =>
    obtain ⟨pa, fba⟩ := a
    unfold scoreAllGo at h
    cases h1 : scoreOne sev uniq sim full expl pa fba with
    | none => rw [h1] at h; exact absurd h (by simp)
    | some sc =>
      rw [h1] at h
      cases h2 : scoreAllGo sev uniq sim full expl t with
      | none => rw [h2] at h; exact absurd h (by simp)
      | some lr =>
        rw [h2] at h
        simp only [Option.some.injEq, Prod.mk.injEq] at h
        intro y hy
        rw [← h.1] at hy
        rcases List.mem_cons.mp hy with hy | hy
        · exact ⟨pa, fba, sc.2, List.mem_cons_self _ _, by rw [hy]; exact h1⟩
        · obtain ⟨p, fb, c, hmem, hsc⟩ := @ih lr.1 lr.2 (by simp [h2]) y hy
          exact ⟨p, fb, c, List.mem_cons_of_mem _ hmem, hsc⟩

theorem scoreAllGo_map_fst {sev : SevOracle} {uniq : UniqOracle}
    {sim : String → String → Rat} {full : List (String × Feedback)} {expl}
    {l : List (String × Feedback)} {l' : List Scored} {n}
    (h : scoreAllGo sev uniq sim full expl l = some (l', n)) :
    l'.map Scored.persona = l.map Prod.fst := by
  induction l generalizing l' n with
  | nil =>
    simp only [scoreAllGo, Option.some.injEq, Prod.mk.injEq] at h
    rw [← h.1]; rfl
  | cons a t ih =>
    obtain ⟨pa, fba⟩ := a
    unfold scoreAllGo at h
    cases h1 : scoreOne sev uniq sim full expl pa fba with
    | none => rw [h1] at h; exact absurd h (by simp)
    | some sc =>
      rw [h1] at h
      cases h2 : scoreAllGo sev uniq sim full expl t with
      | none => rw [h2] at h; exact absurd h (by simp)
      | some lr =>
        rw [h2] at h
        simp only [Option.some.injEq, Prod.mk.injEq] at h
        rw [← h.1]
        simp only [List.map_cons]
        rw [@ih lr.1 lr.2 (by simp [h2])]
        have := (scoreOne_fields (x := sc.1) (n := sc.2) (by simpa using h1)).1
        rw [this]

theorem assignRanks_length (k : Nat) (m : List Scored) :
    (assignRanks k m).length = m.length := by
  induction m generalizing k with
  | nil => rfl
  | cons a t ih => simp [assignRanks, ih]

theorem assignRanks_get (k : Nat) (m : List Scored) (i : Nat)
    (hi : i < (assignRanks k m).length) (hi' : i < m.length) :
    (assignRanks k m).get ⟨i, hi⟩ = { m.get ⟨i, hi'⟩ with rank := k + i } := by
  induction m generalizing k i with
  | nil => exact absurd hi' (by simp)
  | cons a t ih =>
    cases i with
    | zero => simp [assignRanks]
    | succ j =>
      have hj : j < (assignRanks (k + 1) t).length := by
        simpa [assignRanks] using hi
      have hj' : j < t.length := by simpa using hi'
      have := ih (k + 1) j hj hj'
      simp only [assignRanks, List.get_cons_succ]
      rw [this]
      have : k + 1 + j = k + (j + 1) := by omega
      rw [this]

theorem assignRanks_mem {k : Nat} {m : List Scored} {e : Scored}
    (h : e ∈ assignRanks k m) :
    ∃ x ∈ m, e = { x with rank := e.rank } := by
  induction m generalizing k with
  | nil => exact absurd h (by simp [assignRanks])
  | cons a t ih =>
    rcases List.mem_cons.mp (by simpa [assignRanks] using h) with he | he
    · exact ⟨a, List.mem_cons_self _ _, by rw [he]⟩
    · obtain ⟨x, hx, hxe⟩ := ih he
      exact ⟨x, List.mem_cons_of_mem _ hx, hxe⟩

theorem assignRanks_map_persona (k : Nat) (m : List Scored) :
    (assignRanks k m).map Scored.persona = m.map Scored.persona := by
  induction m generalizing k with
  | nil => rfl
  | cons a t ih => simp [assignRanks, ih]

theorem assignRanks_map_rank (k : Nat) (m : List Scored) :
    (assignRanks k m).map Scored.rank = List.range' k m.length := by
  induction m generalizing k with
  | nil => rfl
  | cons a t ih => simp [assignRanks, ih, List.range'_succ]

theorem scoreGE_trans (a b c : Scored) :
    scoreGE a b → scoreGE b c → scoreGE a c := by
  simp only [scoreGE, decide_eq_true_eq]
  exact fun h1 h2 => le_trans h2 h1

theorem scoreGE_total (a b : Scored) : scoreGE a b || scoreGE b a := by
  simp only [scoreGE, Bool.or_eq_true, decide_eq_true_eq]
  exact le_total b.score a.score

/-! ### Claim C1 -/

/-- Counterexample to C1 as stated: with every persona feedback dict empty
and iteration at the cap, the stopper node stops citing empty feedback, not
the max-iterations reason, because the empty-feedback rule is checked
before the delegated stopping rules. -/
theorem stopper_node_empty_feedback_preempts_max_iterations :
    stopper_node
        { reward_scores := [("advanced", 9)], history := [], iteration := 5,
          max_iters := 5, student_responses := [] } =
      ⟨"STOP", "All personas returned empty feedback."⟩
    ∧ "All personas returned empty feedback." ≠ "Max iterations reached." := by
  exact ⟨rfl, by decide⟩

/-- C1 (amended): inside the pure stopping_decision function the
max-iterations cap is the first rule and always yields STOP with the
max-iterations reason regardless of scores and history; in the enclosing
stopper node the same holds whenever the feedback dicts are not all empty,
the all-empty check being the one rule evaluated earlier. -/
theorem stopping_decision_max_iterations_first :
    (∀ scores history_scores (iteration : Int) config,
        (config.getD {}).max_iterations ≤ iteration →
        stopping_decision scores history_scores iteration config =
          ⟨"STOP", "Max iterations reached."⟩)
    ∧ (∀ st : NodeState, allEmptyResponses st = false →
        st.max_iters ≤ st.iteration →
        stopper_node st = ⟨"STOP", "Max iterations reached."⟩) := by
  constructor
  · intro scores hist iteration config h
    simp only [stopping_decision, if_pos h]
  · intro st hne h
    simp only [stopper_node, hne, Bool.false_eq_true, if_false]
    simp only [stopping_decision, Option.getD_some, if_pos h]

/-- Witness for C1 at concrete inputs: a score dict indicating strong
signals does not override the cap, in either entry point. -/
theorem stopping_decision_max_iterations_first_witness :
    stopping_decision [("advanced", 9)] [] 5 none =
        ⟨"STOP", "Max iterations reached."⟩
    ∧ stopper_node
        { reward_scores := [("advanced", 9)], history := [], iteration := 5,
          max_iters := 5,
          student_responses := [("advanced", [("issue", Json.null)])] } =
      ⟨"STOP", "Max iterations reached."⟩ :=
  ⟨stopping_decision_max_iterations_first.1 _ _ _ _ (by decide),
   stopping_decision_max_iterations_first.2 _ (by rfl) (by decide)⟩

/-! ### Claim C2 -/

/-- Counterexample to C2 as stated: all current scores equal to 1 with a
full window of prior rounds lacking a 3 satisfies every stagnation
condition of the claim, yet the decision reason is the all-scored-1 rule,
which is evaluated earlier. -/
theorem stopping_decision_all_ones_preempts_stagnation :
    ((scaleVals [("advanced", 1), ("struggling", 1), ("visual", 1),
        ("practical", 1), ("theoretical", 1)]).all (fun v => v ≠ 3)
      ∧ (2 : Int) ≤ (([[("advanced", 1)], [("advanced", 1)]] :
          List (List (String × Rat))).length : Int)
      ∧ (([[("advanced", 1)], [("advanced", 1)]] :
          List (List (String × Rat))).all
          (fun past => (scaleVals past).all (fun v => v ≠ 3))))
    ∧ stopping_decision
        [("advanced", 1), ("struggling", 1), ("visual", 1),
          ("practical", 1), ("theoretical", 1)]
        [[("advanced", 1)], [("advanced", 1)]] 0 (some {}) =
      ⟨"STOP", "All personas scored 1 (no actionable feedback)."⟩
    ∧ "All personas scored 1 (no actionable feedback)." ≠ stagnationReason 2 := by
  refine ⟨⟨by decide, by decide, by decide⟩, by rfl, by decide⟩

/-- C2 (amended): provided the earlier rules have not fired, that is the
iteration cap is not reached, not every current score equals 1, and the
stagnation window is positive, the decision is STOP with the stagnation
reason exactly when no persona scored 3 in the current round, at least
stagnation_window prior rounds are on record, and none of the last
stagnation_window prior rounds contains a 3. -/
theorem stopping_decision_stagnation_iff
    (scores : List (String × Rat))
    (history_scores : List (List (String × Rat)))
    (iteration : Int) (cfg : StopConfig)
    (hmax : iteration < cfg.max_iterations)
    (hnot1 : ¬ (scaleVals scores).all (fun v => v = 1))
    (hw : 0 < cfg.stagnation_window) :
    stopping_decision scores history_scores iteration (some cfg) =
        ⟨"STOP", stagnationReason cfg.stagnation_window⟩
      ↔ ((scaleVals scores).all (fun v => v ≠ 3)
          ∧ cfg.stagnation_window ≤ (history_scores.length : Int)
          ∧ (history_scores.drop
              (history_scores.length - cfg.stagnation_window.toNat)).all
              (fun past => (scaleVals past).all (fun v => v ≠ 3))) := by
  have hcont : (continueDecision = (⟨"STOP", stagnationReason cfg.stagnation_window⟩ : Decision)) ↔ False := by
    simp only [continueDecision, Decision.mk.injEq, iff_false, not_and]
    intro hc
    exact absurd hc (by decide)
  simp only [stopping_decision, Option.getD_some]
  rw [if_neg (not_le.mpr hmax)]
  rw [if_neg (by simpa using hnot1)]
  by_cases h3 : (scaleVals scores).all (fun v => v ≠ 3)
  · have hc3 : ((scaleVals scores).filter (fun v => v = 3)).length = 0 := by
      rw [List.length_eq_zero]
      rw [List.filter_eq_nil]
      intro a ha
      have := List.all_eq_true.mp h3 a ha
      simpa using this
    rw [if_pos ⟨hc3, hw⟩]
    by_cases hlen : cfg.stagnation_window ≤ (history_scores.length : Int)
    · have hmin : min cfg.stagnation_window (history_scores.length : Int) =
          cfg.stagnation_window := min_eq_left hlen
      rw [hmin]
      by_cases hall : (history_scores.drop
          (history_scores.length - cfg.stagnation_window.toNat)).all
          (fun past => (scaleVals past).all (fun v => v ≠ 3))
      · rw [if_pos ⟨hall, rfl⟩]
        simp only [true_iff]
        exact ⟨h3, hlen, hall⟩
      · rw [if_neg (by intro hc; exact hall hc.1)]
        rw [hcont]
        simp only [false_iff, not_and]
        intro _ _ hc
        exact absurd hc hall
    · have hmin : min cfg.stagnation_window (history_scores.length : Int) =
          (history_scores.length : Int) := min_eq_right (le_of_not_le hlen)
      rw [hmin]
      rw [if_neg (by
        intro hc
        exact hlen (le_of_eq hc.2.symm))]
      rw [hcont]
      simp only [false_iff, not_and]
      intro _ hc
      exact absurd hc hlen
  · rw [if_neg (by
      intro hc
      have := List.filter_eq_nil.mp (List.length_eq_zero.mp hc.1)
      exact h3 (List.all_eq_true.mpr (by
        intro a ha
        have := this a ha
        simpa using this)))]
    rw [hcont]
    simp only [false_iff, not_and]
    intro hc
    exact absurd hc h3

/-- Witness for C2 at a concrete input satisfying the provisos: a mixed
score dict, a full two-round no-3 history, default configuration. -/
theorem stopping_decision_stagnation_iff_witness :
    stopping_decision [("advanced", 2)]
        [[("advanced", 1)], [("advanced", 1)]] 0 (some {}) =
      ⟨"STOP", stagnationReason 2⟩ :=
  (stopping_decision_stagnation_iff [("advanced", 2)]
      [[("advanced", 1)], [("advanced", 1)]] 0 {} (by decide) (by decide)
      (by decide)).mpr ⟨by decide, by decide, by decide⟩

/-! ### Claim C7 -/

/-- C7: when the uniqueness judging call fails for a nonempty issue with a
nonempty list of other issues, the returned uniqueness is exactly one minus
the largest similarity ratio against the lowercased other issues, a pure
computation independent of the external oracle. -/
theorem uniqueness_failure_fallback (sim : String → String → Rat)
    (uniq : UniqOracle) (issue : String) (others : List String)
    (hne : issue ≠ "") (ho : others ≠ [])
    (hfail : uniq issue others = none) :
    calculate_uniqueness sim uniq issue others =
      (1 - pyMaxD (others.map (fun o => sim (pyLower issue) (pyLower o))) 0,
        1) := by
  simp only [calculate_uniqueness, hfail, fallbackUniqueness]
  rw [if_neg (by simp [hne, ho])]

/-- Witness for C7: a failing oracle with one other issue and a constant
similarity of one half yields uniqueness one half. -/
theorem uniqueness_failure_fallback_witness :
    calculate_uniqueness (fun _ _ => (1 : Rat) / 2) (fun _ _ => none)
      "a" ["b"] = (1 / 2, 1) :=
  (uniqueness_failure_fallback (fun _ _ => (1 : Rat) / 2) (fun _ _ => none)
      "a" ["b"] (by decide) (by decide) rfl).trans (by norm_num [pyMaxD])

/-! ### Claim C8 -/

/-- C8: a missing severity key, or an integer severity outside the 0-3
scale, makes severity validation return the default severity 1 with the
stripped justification, rather than failing. -/
theorem judge_severity_defaults_invalid_to_one
    (parsed : List (String × Json)) :
    (parsed.lookup "severity" = none →
      severityFromParsed parsed =
        some (1, pyStripStr (pyStr ((parsed.lookup "justification").getD (.str "")))))
    ∧ (∀ n : Int, parsed.lookup "severity" = some (.num n) →
      ¬(n = 0 ∨ n = 1 ∨ n = 2 ∨ n = 3) →
      severityFromParsed parsed =
        some (1, pyStripStr (pyStr ((parsed.lookup "justification").getD (.str ""))))) := by
  constructor
  · intro h
    simp [severityFromParsed, h, pyJsonToInt]
  · intro n h hn
    simp only [severityFromParsed, h, Option.getD_some, pyJsonToInt]
    rw [if_neg hn]

/-- Witness for C8: an absent severity key and an out-of-scale severity 7
both validate to severity 1. -/
theorem judge_severity_defaults_invalid_to_one_witness :
    severityFromParsed [] = some (1, "")
    ∧ severityFromParsed [("severity", Json.num 7)] = some (1, "") :=
  ⟨((judge_severity_defaults_invalid_to_one []).1 rfl).trans rfl,
   ((judge_severity_defaults_invalid_to_one [("severity", Json.num 7)]).2 7
      rfl (by decide)).trans rfl⟩

/-! ### Claim C4 -/

/-- C4: a persona with a null issue is scored 0 severity, 0.0 uniqueness
and 0.0 score by a computation that issues no judge call (the result is
this fixed record for every choice of oracles, with a call count of zero),
and every null-issue entry of the ranked output carries those zeros. -/
theorem null_issue_short_circuit :
    (∀ (sev : SevOracle) (uniq : UniqOracle) (sim : String → String → Rat)
        (responses : List (String × Feedback)) (explanation persona : String)
        (fb : Feedback), fb.issue = none →
        scoreOne sev uniq sim responses explanation persona fb =
          some (⟨persona, fb, 0, 0, "No issue provided", 0, 0, 0⟩, 0))
    ∧ (∀ (sev : SevOracle) (uniq : UniqOracle) (sim : String → String → Rat)
        (responses : List (String × Feedback)) (question explanation : String)
        (out : List Scored),
        score_and_rank_critiques sev uniq sim responses question explanation =
          some out →
        ∀ e ∈ out, e.feedback.issue = none →
          e.validated_severity = 0 ∧ e.uniqueness = 0 ∧ e.score = 0) := by
  constructor
  · intro sev uniq sim responses explanation persona fb hfb
    simp [scoreOne, hfb]
  · intro sev uniq sim responses question explanation out h e he hie
    unfold score_and_rank_critiques at h
    cases hall : scoreAll sev uniq sim responses explanation with
    | none => rw [hall] at h; exact absurd h (by simp)
    | some lr =>
      rw [hall] at h
      simp only [Option.some.injEq] at h
      rw [← h] at he
      obtain ⟨x, hx, hex⟩ := assignRanks_mem he
      have hx' : x ∈ lr.1 := List.mem_mergeSort.mp hx
      obtain ⟨p, fb, c, _, hsc⟩ := scoreAllGo_mem hall x hx'
      have hxe : x.feedback = e.feedback := by rw [hex]
      have hxie : x.feedback.issue = none := by rw [hxe]; exact hie
      have hz := scoreOne_null_fields hsc hxie
      refine ⟨?_, ?_, ?_⟩
      · rw [hex]; exact hz.1
      · rw [hex]; exact hz.2.1
      · rw [hex]; exact hz.2.2.1

/-- Witness for C4: the fixed zero record for a null-issue persona and the
zero fields in a concrete one-persona ranked output. -/
theorem null_issue_short_circuit_witness :
    scoreOne (fun _ _ _ => none) (fun _ _ => none) (fun _ _ => 0) []
        "expl" "advanced" ⟨none, none⟩ =
      some (⟨"advanced", ⟨none, none⟩, 0, 0, "No issue provided", 0, 0, 0⟩, 0)
    ∧ ((⟨"advanced", ⟨none, none⟩, 0, 0, "No issue provided", 0, 0, 1⟩ :
        Scored).validated_severity = 0
      ∧ (⟨"advanced", ⟨none, none⟩, 0, 0, "No issue provided", 0, 0, 1⟩ :
        Scored).uniqueness = 0
      ∧ (⟨"advanced", ⟨none, none⟩, 0, 0, "No issue provided", 0, 0, 1⟩ :
        Scored).score = 0) := by
  constructor
  · exact null_issue_short_circuit.1 _ _ _ _ _ _ _ rfl
  · have h : score_and_rank_critiques (fun _ _ _ => none) (fun _ _ => none)
        (fun _ _ => 0) [("advanced", ⟨none, none⟩)] "q" "expl" =
        some [⟨"advanced", ⟨none, none⟩, 0, 0, "No issue provided", 0, 0, 1⟩] := by
      simp [score_and_rank_critiques, scoreAll, scoreAllGo, scoreOne,
        assignRanks]
    exact null_issue_short_circuit.2 _ _ _ _ _ _ _ h _ (by simp) rfl

/-! ### Claim C9 -/

theorem foldl_historyStep_notin (iter : Int) :
    ∀ (l : List Scored) (hist : String → List ScoreHistoryEntry) (p : String),
      p ∉ l.map Scored.persona →
      l.foldl (historyStep iter) hist p = hist p := by
  intro l
  induction l with
  | nil => intro hist p _; rfl
  | cons a t ih =>
    intro hist p hp
    simp only [List.map_cons, List.mem_cons, not_or] at hp
    simp only [List.foldl_cons]
    rw [ih _ p hp.2]
    simp only [historyStep, if_neg hp.1]

theorem foldl_historyStep_prefix (iter : Int) :
    ∀ (l : List Scored) (hist : String → List ScoreHistoryEntry) (p : String),
      ∃ t, l.foldl (historyStep iter) hist p = hist p ++ t := by
  intro l
  induction l with
  | nil => intro hist p; exact ⟨[], by simp⟩
  | cons a s ih =>
    intro hist p
    simp only [List.foldl_cons]
    obtain ⟨t, ht⟩ := ih (historyStep iter hist a) p
    rw [ht]
    by_cases hp : p = a.persona
    · exact ⟨entryOf iter a :: t, by simp [historyStep, hp]⟩
    · exact ⟨t, by simp [historyStep, hp]⟩

/-- Counterexample to C9 as stated: a judge-assigned severity-0 critique
with a real issue text is recorded in the history with that issue text, not
with the sentinel string, so not every severity-0 entry reads No issue
found. -/
theorem score_history_judge_zero_keeps_issue_text :
    score_and_rank_critiques
        (fun _ _ _ => some [("severity", Json.num 0),
          ("justification", Json.str "invalid")])
        (fun _ _ => none) (fun _ _ => 0)
        [("advanced", ⟨some "x", none⟩)] "q" "e" =
      some [⟨"advanced", ⟨some "x", none⟩, 3, 0, "invalid", 1, 3, 1⟩]
    ∧ update_score_history (fun _ => []) 0
        [⟨"advanced", ⟨some "x", none⟩, 3, 0, "invalid", 1, 3, 1⟩]
        "advanced" =
      [⟨0, 3, 1, "x", 0, "invalid", 1, 3⟩]
    ∧ (⟨0, 3, 1, "x", 0, "invalid", 1, 3⟩ : ScoreHistoryEntry).validated_severity = 0
    ∧ "x" ≠ "No issue found" := by
  refine ⟨?_, by rfl, rfl, by decide⟩
  norm_num [score_and_rank_critiques, scoreAll, scoreAllGo, scoreOne,
    judge_severity, severityFromParsed, pyJsonToInt, pyStr, pyStripStr,
    pyStrip, calculate_uniqueness, assignRanks]
  rfl

/-- C9 (amended): each round appends exactly one history entry per persona
in the scored list, entries of other personas and all previously recorded
entries are untouched (the old list is always a prefix of the new one), and
an entry whose critique has a null issue is recorded with the issue text No
issue found; a judge-assigned severity-0 entry with a non-null issue keeps
its issue text. -/
theorem score_history_append_only (hist : String → List ScoreHistoryEntry)
    (iter : Int) (scored : List Scored)
    (hnd : (scored.map Scored.persona).Nodup) :
    (∀ item ∈ scored,
        update_score_history hist iter scored item.persona =
          hist item.persona ++ [entryOf iter item])
    ∧ (∀ p, p ∉ scored.map Scored.persona →
        update_score_history hist iter scored p = hist p)
    ∧ (∀ p, ∃ t, update_score_history hist iter scored p = hist p ++ t)
    ∧ (∀ item : Scored, item.feedback.issue = none →
        (entryOf iter item).issue = "No issue found") := by
  refine ⟨?_, fun p hp => foldl_historyStep_notin iter scored hist p hp,
    fun p => foldl_historyStep_prefix iter scored hist p,
    fun item hi => by simp [entryOf, hi]⟩
  intro item hmem
  induction scored generalizing hist with
  | nil => exact absurd hmem (List.not_mem_nil _)
  | cons a t ih =>
    simp only [List.map_cons, List.nodup_cons] at hnd
    rcases List.mem_cons.mp hmem with he | he
    · subst he
      unfold update_score_history
      simp only [List.foldl_cons]
      rw [foldl_historyStep_notin iter t _ item.persona hnd.1]
      simp [historyStep]
    · have hne : a.persona ≠ item.persona := by
        intro hc
        exact hnd.1 (hc ▸ (List.mem_map_of_mem Scored.persona he))
      unfold update_score_history
      simp only [List.foldl_cons]
      have hne' : item.persona ≠ a.persona := fun h => hne h.symm
      have := ih (historyStep iter hist a) hnd.2 he
      unfold update_score_history at this
      rw [this]
      simp [historyStep, hne']

/-- Witness for C9 at a concrete one-entry round on an empty history. -/
theorem score_history_append_only_witness :
    update_score_history (fun _ => []) 0
        [⟨"advanced", ⟨some "y", none⟩, 3, 2, "j", 1, 3, 1⟩] "advanced" =
      [] ++ [entryOf 0 ⟨"advanced", ⟨some "y", none⟩, 3, 2, "j", 1, 3, 1⟩]
    ∧ update_score_history (fun _ => []) 0
        [⟨"advanced", ⟨some "y", none⟩, 3, 2, "j", 1, 3, 1⟩] "visual" = []
    ∧ (entryOf 0 ⟨"practical", ⟨none, none⟩, 0, 0, "No issue provided", 0, 0, 5⟩).issue =
        "No issue found" :=
  ⟨(score_history_append_only (fun _ => []) 0
      [⟨"advanced", ⟨some "y", none⟩, 3, 2, "j", 1, 3, 1⟩] (by decide)).1
      ⟨"advanced", ⟨some "y", none⟩, 3, 2, "j", 1, 3, 1⟩ (by simp),
   (score_history_append_only (fun _ => []) 0
      [⟨"advanced", ⟨some "y", none⟩, 3, 2, "j", 1, 3, 1⟩] (by decide)).2.1
      "visual" (by decide),
   (score_history_append_only (fun _ => []) 0 [] (by decide)).2.2.2
      _ rfl⟩

/-! ### Claim C10 -/

/-- C10: the ranked output has exactly one entry per input persona, with
the persona multiset preserved, and the assigned ranks are exactly 1..n in
output order. -/
theorem ranking_complete_one_entry_per_persona
    (sev : SevOracle) (uniq : UniqOracle) (sim : String → String → Rat)
    (responses : List (String × Feedback)) (question explanation : String)
    (out : List Scored)
    (h : score_and_rank_critiques sev uniq sim responses question explanation =
      some out) :
    out.length = responses.length
    ∧ (out.map Scored.persona).Perm (responses.map Prod.fst)
    ∧ out.map Scored.rank = List.range' 1 responses.length := by
  unfold score_and_rank_critiques at h
  cases hall : scoreAll sev uniq sim responses explanation with
  | none => rw [hall] at h; exact absurd h (by simp)
  | some lr =>
    rw [hall] at h
    simp only [Option.some.injEq] at h
    have hmapfst := scoreAllGo_map_fst hall
    have hlen : lr.1.length = responses.length := by
      have := congrArg List.length hmapfst
      simpa using this
    refine ⟨?_, ?_, ?_⟩
    · rw [← h, assignRanks_length, List.length_mergeSort, hlen]
    · rw [← h, assignRanks_map_persona]
      exact ((List.mergeSort_perm lr.1 scoreGE).map Scored.persona).trans
        (hmapfst ▸ List.Perm.refl _)
    · rw [← h, assignRanks_map_rank, List.length_mergeSort, hlen]

/-- Witness for C10 at a concrete two-persona round. -/
theorem ranking_complete_one_entry_per_persona_witness :
    ([(⟨"advanced", ⟨none, none⟩, 0, 0, "No issue provided", 0, 0, 1⟩ : Scored),
      ⟨"struggling", ⟨none, none⟩, 0, 0, "No issue provided", 0, 0, 2⟩].map
        Scored.persona).Perm ["advanced", "struggling"]
    ∧ [(⟨"advanced", ⟨none, none⟩, 0, 0, "No issue provided", 0, 0, 1⟩ : Scored),
      ⟨"struggling", ⟨none, none⟩, 0, 0, "No issue provided", 0, 0, 2⟩].map
        Scored.rank = List.range' 1 2 := by
  have hms : List.mergeSort
      [(⟨"advanced", ⟨none, none⟩, 0, 0, "No issue provided", 0, 0, 0⟩ : Scored),
        ⟨"struggling", ⟨none, none⟩, 0, 0, "No issue provided", 0, 0, 0⟩]
      scoreGE =
      [⟨"advanced", ⟨none, none⟩, 0, 0, "No issue provided", 0, 0, 0⟩,
        ⟨"struggling", ⟨none, none⟩, 0, 0, "No issue provided", 0, 0, 0⟩] :=
    List.mergeSort_of_sorted (by simp [scoreGE])
  have h : score_and_rank_critiques (fun _ _ _ => none) (fun _ _ => none)
      (fun _ _ => 0)
      [("advanced", ⟨none, none⟩), ("struggling", ⟨none, none⟩)] "q" "e" =
      some [⟨"advanced", ⟨none, none⟩, 0, 0, "No issue provided", 0, 0, 1⟩,
        ⟨"struggling", ⟨none, none⟩, 0, 0, "No issue provided", 0, 0, 2⟩] := by
    have h0 : score_and_rank_critiques (fun _ _ _ => none) (fun _ _ => none)
        (fun _ _ => 0)
        [("advanced", ⟨none, none⟩), ("struggling", ⟨none, none⟩)] "q" "e" =
        some (assignRanks 1 (List.mergeSort
          [⟨"advanced", ⟨none, none⟩, 0, 0, "No issue provided", 0, 0, 0⟩,
            ⟨"struggling", ⟨none, none⟩, 0, 0, "No issue provided", 0, 0, 0⟩]
          scoreGE)) := rfl
    rw [h0, hms]
    rfl
  have := ranking_complete_one_entry_per_persona _ _ _ _ _ _ _ h
  exact ⟨this.2.1, this.2.2⟩

/-! ### Claim C3 -/

theorem severityFromParsed_range {parsed : List (String × Json)} {s : Int}
    {j : String} (h : severityFromParsed parsed = some (s, j)) :
    s = 0 ∨ s = 1 ∨ s = 2 ∨ s = 3 := by
  unfold severityFromParsed at h
  cases hp : pyJsonToInt ((parsed.lookup "severity").getD (.num 1)) with
  | none => rw [hp] at h; exact absurd h (by simp)
  | some s0 =>
    rw [hp] at h
    simp only [Option.some.injEq, Prod.mk.injEq] at h
    by_cases hc : s0 = 0 ∨ s0 = 1 ∨ s0 = 2 ∨ s0 = 3
    · rw [if_pos hc] at h
      rw [← h.1]
      exact hc
    · rw [if_neg hc] at h
      rw [← h.1]
      right; left; rfl

theorem foldl_max_bounds :
    ∀ (t : List Rat) (a : Rat), 0 ≤ a → a ≤ 1 →
      (∀ x ∈ t, 0 ≤ x ∧ x ≤ 1) →
      0 ≤ t.foldl max a ∧ t.foldl max a ≤ 1 := by
  intro t
  induction t with
  | nil => intro a h0 h1 _; exact ⟨h0, h1⟩
  | cons x s ih =>
    intro a h0 h1 hall
    have hx := hall x (List.mem_cons_self _ _)
    simp only [List.foldl_cons]
    exact ih (max a x) (le_trans h0 (le_max_left a x))
      (max_le h1 hx.2) (fun y hy => hall y (List.mem_cons_of_mem _ hy))

theorem calculate_uniqueness_bounds (sim : String → String → Rat)
    (uniq : UniqOracle) (issue : String) (others : List String)
    (hsim : ∀ a b, 0 ≤ sim a b ∧ sim a b ≤ 1) :
    0 ≤ (calculate_uniqueness sim uniq issue others).1
    ∧ (calculate_uniqueness sim uniq issue others).1 ≤ 1 := by
  unfold calculate_uniqueness
  by_cases hg : issue = "" ∨ others = []
  · rw [if_pos hg]
    norm_num
  · rw [if_neg hg]
    cases hu : uniq issue others with
    | some u =>
      exact ⟨le_max_left 0 _, max_le (by norm_num) (min_le_left 1 u)⟩
    | none =>
      push_neg at hg
      unfold fallbackUniqueness
      have hb : 0 ≤ pyMaxD (others.map
            (fun o => sim (pyLower issue) (pyLower o))) 0
          ∧ pyMaxD (others.map
            (fun o => sim (pyLower issue) (pyLower o))) 0 ≤ 1 := by
        cases ho : others.map (fun o => sim (pyLower issue) (pyLower o)) with
        | nil =>
          exact absurd (List.map_eq_nil.mp ho) hg.2
        | cons a t =>
          have hmem : ∀ x ∈ a :: t, 0 ≤ x ∧ x ≤ 1 := by
            intro x hx
            rw [← ho] at hx
            obtain ⟨o, _, hox⟩ := List.mem_map.mp hx
            rw [← hox]
            exact hsim _ _
          have ha := hmem a (List.mem_cons_self _ _)
          unfold pyMaxD
          exact foldl_max_bounds t a ha.1 ha.2
            (fun y hy => hmem y (List.mem_cons_of_mem _ hy))
      constructor
      · simp only
        linarith [hb.2]
      · simp only
        linarith [hb.1]

theorem scoreOne_issue_fields {sev : SevOracle} {uniq : UniqOracle}
    {sim : String → String → Rat} {resp : List (String × Feedback)}
    {expl p : String} {fb : Feedback} {x : Scored} {n : Nat} {issue : String}
    (h : scoreOne sev uniq sim resp expl p fb = some (x, n))
    (hfb : fb.issue = some issue) :
    ∃ sj, judge_severity sev issue expl fb.quote = some sj
      ∧ x.validated_severity = sj.1
      ∧ x.uniqueness = (calculate_uniqueness sim uniq issue
          (resp.filterMap (fun pf => if pf.1 ≠ p then pf.2.issue else none))).1
      ∧ x.score = (x.validated_severity : Rat) + x.uniqueness * 3 := by
  unfold scoreOne at h
  rw [hfb] at h
  dsimp only at h
  cases hj : judge_severity sev issue expl fb.quote with
  | none => rw [hj] at h; exact absurd h (by simp)
  | some sj =>
    rw [hj] at h
    simp only [Option.some.injEq, Prod.mk.injEq] at h
    refine ⟨sj, rfl, ?_, ?_, ?_⟩
    · rw [← h.1]
    · rw [← h.1]
    · rw [← h.1]

/-- C3: every judged entry produced from a non-null issue carries a score
equal to the validated severity plus the uniqueness bonus of three times
the uniqueness, with the severity on the 0-3 scale and the uniqueness in
the unit interval (the similarity ratio is bounded by the unit interval, as
difflib ratios are). -/
theorem score_eq_severity_plus_uniqueness_bonus
    (sev : SevOracle) (uniq : UniqOracle) (sim : String → String → Rat)
    (responses : List (String × Feedback)) (question explanation : String)
    (out : List Scored)
    (hsim : ∀ a b, 0 ≤ sim a b ∧ sim a b ≤ 1)
    (h : score_and_rank_critiques sev uniq sim responses question explanation =
      some out) :
    ∀ e ∈ out, e.feedback.issue ≠ none →
      e.score = (e.validated_severity : Rat) + e.uniqueness * 3
      ∧ (e.validated_severity = 0 ∨ e.validated_severity = 1
          ∨ e.validated_severity = 2 ∨ e.validated_severity = 3)
      ∧ 0 ≤ e.uniqueness ∧ e.uniqueness ≤ 1 := by
  intro e he hie
  unfold score_and_rank_critiques at h
  cases hall : scoreAll sev uniq sim responses explanation with
  | none => rw [hall] at h; exact absurd h (by simp)
  | some lr =>
    rw [hall] at h
    simp only [Option.some.injEq] at h
    rw [← h] at he
    obtain ⟨x, hx, hex⟩ := assignRanks_mem he
    have hx' : x ∈ lr.1 := List.mem_mergeSort.mp hx
    obtain ⟨p, fb, c, _, hsc⟩ := scoreAllGo_mem hall x hx'
    have hxfb : x.feedback = fb := (scoreOne_fields hsc).2.1
    have hfbi : fb.issue ≠ none := by
      rw [← hxfb]
      rw [hex] at hie
      simpa using hie
    obtain ⟨issue, hissue⟩ := Option.ne_none_iff_exists.mp hfbi
    obtain ⟨sj, hjudge, hsev, huniq, hscore⟩ :=
      scoreOne_issue_fields hsc hissue.symm
    have hsev_range : x.validated_severity = 0 ∨ x.validated_severity = 1
        ∨ x.validated_severity = 2 ∨ x.validated_severity = 3 := by
      unfold judge_severity at hjudge
      rw [hsev]
      cases hoo : sev issue explanation fb.quote with
      | none => rw [hoo] at hjudge; exact absurd hjudge (by simp)
      | some parsed =>
        rw [hoo] at hjudge
        simp only [Option.some_bind] at hjudge
        exact severityFromParsed_range (s := sj.1) (j := sj.2)
          (by rw [hjudge])
    have hub := calculate_uniqueness_bounds sim uniq issue
      (responses.filterMap (fun pf => if pf.1 ≠ p then pf.2.issue else none))
      hsim
    refine ⟨?_, ?_, ?_, ?_⟩
    · rw [hex]; exact hscore
    · rw [hex]; exact hsev_range
    · rw [hex, huniq]; exact hub.1
    · rw [hex, huniq]; exact hub.2

/-- Witness for C3: a concrete judged round with severity 2 and uniqueness
1 scores exactly 2 + 1 * 3. -/
theorem score_eq_severity_plus_uniqueness_bonus_witness :
    ((5 : Rat) = ((2 : Int) : Rat) + 1 * 3)
    ∧ ((2 : Int) = 0 ∨ (2 : Int) = 1 ∨ (2 : Int) = 2 ∨ (2 : Int) = 3)
    ∧ (0 : Rat) ≤ 1 ∧ (1 : Rat) ≤ 1 := by
  have h : score_and_rank_critiques
      (fun _ _ _ => some [("severity", Json.num 2)])
      (fun _ _ => none) (fun _ _ => 0)
      [("advanced", ⟨some "a", none⟩)] "q" "e" =
      some [⟨"advanced", ⟨some "a", none⟩, 5, 2, "", 1, 3, 1⟩] := by
    norm_num [score_and_rank_critiques, scoreAll, scoreAllGo, scoreOne,
      judge_severity, severityFromParsed, pyJsonToInt, pyStr, pyStripStr,
      pyStrip, calculate_uniqueness, assignRanks]
    rfl
  exact score_eq_severity_plus_uniqueness_bonus
    (fun _ _ _ => some [("severity", Json.num 2)]) (fun _ _ => none)
    (fun _ _ => 0) [("advanced", ⟨some "a", none⟩)] "q" "e" _
    (fun a b => by norm_num) h
    ⟨"advanced", ⟨some "a", none⟩, 5, 2, "", 1, 3, 1⟩ (by simp) (by simp)

/-! ### Claim C5 -/

/-- C5: in the ranked output a smaller rank never carries a smaller score,
ranks are the 1-based positions, and the sort is stable: a pair of
equal-score entries that appears in order in the scored list still appears
in that order after sorting. -/
theorem ranking_sorted_stable
    (sev : SevOracle) (uniq : UniqOracle) (sim : String → String → Rat)
    (responses : List (String × Feedback)) (question explanation : String)
    (out : List Scored)
    (h : score_and_rank_critiques sev uniq sim responses question explanation =
      some out) :
    (∀ (i j : Nat) (hi : i < out.length) (hj : j < out.length),
        (out.get ⟨i, hi⟩).rank < (out.get ⟨j, hj⟩).rank →
        (out.get ⟨j, hj⟩).score ≤ (out.get ⟨i, hi⟩).score)
    ∧ (∀ (i : Nat) (hi : i < out.length), (out.get ⟨i, hi⟩).rank = i + 1)
    ∧ (∀ (l : List Scored) (n : Nat),
        scoreAll sev uniq sim responses explanation = some (l, n) →
        ∀ a b : Scored, a.score = b.score → [a, b].Sublist l →
        [a, b].Sublist (l.mergeSort scoreGE)) := by
  have stability : ∀ (l : List Scored) (n : Nat),
      scoreAll sev uniq sim responses explanation = some (l, n) →
      ∀ a b : Scored, a.score = b.score → [a, b].Sublist l →
      [a, b].Sublist (l.mergeSort scoreGE) := by
    intro l n _ a b hs hsub
    exact List.pair_sublist_mergeSort scoreGE_trans scoreGE_total
      (by simp only [scoreGE, decide_eq_true_eq]; exact le_of_eq hs.symm) hsub
  unfold score_and_rank_critiques at h
  cases hall : scoreAll sev uniq sim responses explanation with
  | none => rw [hall] at h; exact absurd h (by simp)
  | some lr =>
    rw [hall] at h
    simp only [Option.some.injEq] at h
    subst h
    have hrank : ∀ (i : Nat)
        (hi : i < (assignRanks 1 (lr.1.mergeSort scoreGE)).length),
        ((assignRanks 1 (lr.1.mergeSort scoreGE)).get ⟨i, hi⟩).rank = i + 1 := by
      intro i hi
      have hi' : i < (lr.1.mergeSort scoreGE).length := by
        rw [← assignRanks_length 1]; exact hi
      rw [assignRanks_get 1 _ i hi hi']
      simp [Nat.add_comm]
    have hscoreget : ∀ (i : Nat)
        (hi : i < (assignRanks 1 (lr.1.mergeSort scoreGE)).length)
        (hi' : i < (lr.1.mergeSort scoreGE).length),
        ((assignRanks 1 (lr.1.mergeSort scoreGE)).get ⟨i, hi⟩).score =
          ((lr.1.mergeSort scoreGE).get ⟨i, hi'⟩).score := by
      intro i hi hi'
      rw [assignRanks_get 1 _ i hi hi']
    refine ⟨?_, hrank, fun l n heq => stability l n (hall.trans heq)⟩
    intro i j hi hj hlt
    rw [hrank i hi, hrank j hj] at hlt
    have hij : i < j := by omega
    have hi' : i < (lr.1.mergeSort scoreGE).length := by
      rw [← assignRanks_length 1]; exact hi
    have hj' : j < (lr.1.mergeSort scoreGE).length := by
      rw [← assignRanks_length 1]; exact hj
    have hs := @List.sorted_mergeSort _ scoreGE
      scoreGE_trans scoreGE_total lr.1
    have hpg := List.pairwise_iff_get.mp hs ⟨i, hi'⟩ ⟨j, hj'⟩ hij
    simp only [scoreGE, decide_eq_true_eq] at hpg
    rw [hscoreget i hi hi', hscoreget j hj hj']
    exact hpg

/-- Witness for C5 at a concrete equal-score two-persona round: ranks are
positions, scores are ordered, and the equal-score pair keeps its input
order through the sort. -/
theorem ranking_sorted_stable_witness :
    (([(⟨"advanced", ⟨none, none⟩, 0, 0, "No issue provided", 0, 0, 1⟩ : Scored),
        ⟨"struggling", ⟨none, none⟩, 0, 0, "No issue provided", 0, 0, 2⟩].get
        ⟨1, by norm_num⟩).score ≤
      ([(⟨"advanced", ⟨none, none⟩, 0, 0, "No issue provided", 0, 0, 1⟩ : Scored),
        ⟨"struggling", ⟨none, none⟩, 0, 0, "No issue provided", 0, 0, 2⟩].get
        ⟨0, by norm_num⟩).score)
    ∧ (([(⟨"advanced", ⟨none, none⟩, 0, 0, "No issue provided", 0, 0, 1⟩ : Scored),
        ⟨"struggling", ⟨none, none⟩, 0, 0, "No issue provided", 0, 0, 2⟩].get
        ⟨0, by norm_num⟩).rank = 1)
    ∧ [(⟨"advanced", ⟨none, none⟩, 0, 0, "No issue provided", 0, 0, 0⟩ : Scored),
        ⟨"struggling", ⟨none, none⟩, 0, 0, "No issue provided", 0, 0, 0⟩].Sublist
        ([(⟨"advanced", ⟨none, none⟩, 0, 0, "No issue provided", 0, 0, 0⟩ : Scored),
          ⟨"struggling", ⟨none, none⟩, 0, 0, "No issue provided", 0, 0, 0⟩].mergeSort
          scoreGE) := by
  have hms : List.mergeSort
      [(⟨"advanced", ⟨none, none⟩, 0, 0, "No issue provided", 0, 0, 0⟩ : Scored),
        ⟨"struggling", ⟨none, none⟩, 0, 0, "No issue provided", 0, 0, 0⟩]
      scoreGE =
      [⟨"advanced", ⟨none, none⟩, 0, 0, "No issue provided", 0, 0, 0⟩,
        ⟨"struggling", ⟨none, none⟩, 0, 0, "No issue provided", 0, 0, 0⟩] :=
    List.mergeSort_of_sorted (by simp [scoreGE])
  have h : score_and_rank_critiques (fun _ _ _ => none) (fun _ _ => none)
      (fun _ _ => 0)
      [("advanced", ⟨none, none⟩), ("struggling", ⟨none, none⟩)] "q" "e" =
      some [⟨"advanced", ⟨none, none⟩, 0, 0, "No issue provided", 0, 0, 1⟩,
        ⟨"struggling", ⟨none, none⟩, 0, 0, "No issue provided", 0, 0, 2⟩] := by
    have h0 : score_and_rank_critiques (fun _ _ _ => none) (fun _ _ => none)
        (fun _ _ => 0)
        [("advanced", ⟨none, none⟩), ("struggling", ⟨none, none⟩)] "q" "e" =
        some (assignRanks 1 (List.mergeSort
          [⟨"advanced", ⟨none, none⟩, 0, 0, "No issue provided", 0, 0, 0⟩,
            ⟨"struggling", ⟨none, none⟩, 0, 0, "No issue provided", 0, 0, 0⟩]
          scoreGE)) := rfl
    rw [h0, hms]
    rfl
  have happ := ranking_sorted_stable (fun _ _ _ => none) (fun _ _ => none)
    (fun _ _ => 0)
    [("advanced", ⟨none, none⟩), ("struggling", ⟨none, none⟩)] "q" "e" _ h
  refine ⟨happ.1 0 1 (by norm_num) (by norm_num) ?_, happ.2.1 0 (by norm_num),
    happ.2.2 _ 0 rfl _ _ rfl (List.Sublist.refl _)⟩
  rw [happ.2.1 0 (by norm_num), happ.2.1 1 (by norm_num)]
  norm_num

/-! ### Claim C6: digit and number lemmas -/

theorem natDigitsAux_congr :
    ∀ (f g n : Nat), n < f → n < g → natDigitsAux f n = natDigitsAux g n := by
  intro f
  induction f with
  | zero => intro g n hf; omega
  | succ f ih =>
    intro g n hf hg
    cases g with
    | zero => omega
    | succ g =>
      simp only [natDigitsAux]
      by_cases h10 : n < 10
      · rw [if_pos h10, if_pos h10]
      · rw [if_neg h10, if_neg h10]
        have hdiv : n / 10 < n := Nat.div_lt_self (by omega) (by omega)
        rw [ih g (n / 10) (by omega) (by omega)]

theorem natDigits_eq (n : Nat) :
    natDigits n = if n < 10 then [digChar n]
      else natDigits (n / 10) ++ [digChar (n % 10)] := by
  show (if n < 10 then [digChar n]
      else natDigitsAux n (n / 10) ++ [digChar (n % 10)]) = _
  by_cases h10 : n < 10
  · rw [if_pos h10, if_pos h10]
  · rw [if_neg h10, if_neg h10]
    have hdiv : n / 10 < n := Nat.div_lt_self (by omega) (by omega)
    rw [natDigitsAux_congr n (n / 10 + 1) (n / 10) (by omega) (by omega)]
    rfl

theorem digChar_isDigit {d : Nat} (hd : d < 10) : isDigitCh (digChar d) = true := by
  interval_cases d <;> decide

theorem digChar_ne_zero {d : Nat} (hd : 0 < d) (hd' : d < 10) :
    digChar d ≠ '0' := by
  interval_cases d <;> decide

theorem digitVal_digChar {d : Nat} (hd : d < 10) : digitVal (digChar d) = d := by
  interval_cases d <;> decide

theorem natDigits_all_digits :
    ∀ n, ∀ c ∈ natDigits n, isDigitCh c = true := by
  intro n
  induction n using Nat.strong_induction_on with
  | _ n ih =>
    intro c hc
    rw [natDigits_eq] at hc
    by_cases h10 : n < 10
    · rw [if_pos h10] at hc
      simp only [List.mem_singleton] at hc
      rw [hc]
      exact digChar_isDigit h10
    · rw [if_neg h10] at hc
      rcases List.mem_append.mp hc with hc | hc
      · exact ih (n / 10) (Nat.div_lt_self (by omega) (by omega)) c hc
      · simp only [List.mem_singleton] at hc
        rw [hc]
        exact digChar_isDigit (Nat.mod_lt n (by omega))

theorem natDigits_head_pos :
    ∀ n, 0 < n → ∃ c t, natDigits n = c :: t ∧ isDigitCh c = true ∧ c ≠ '0' := by
  intro n
  induction n using Nat.strong_induction_on with
  | _ n ih =>
    intro hn
    rw [natDigits_eq]
    by_cases h10 : n < 10
    · rw [if_pos h10]
      exact ⟨digChar n, [], rfl, digChar_isDigit h10, digChar_ne_zero hn h10⟩
    · rw [if_neg h10]
      have hdiv : n / 10 < n := Nat.div_lt_self (by omega) (by omega)
      obtain ⟨c, t, heq, hd, hz⟩ := ih (n / 10) hdiv (by omega)
      exact ⟨c, t ++ [digChar (n % 10)], by rw [heq]; rfl, hd, hz⟩

theorem valOfDigitsAcc_append (l : List Char) :
    ∀ (acc : Nat) (d : Char),
      valOfDigitsAcc acc (l ++ [d]) = 10 * valOfDigitsAcc acc l + digitVal d := by
  induction l with
  | nil => intro acc d; rfl
  | cons c t ih =>
    intro acc d
    show valOfDigitsAcc (10 * acc + digitVal c) (t ++ [d]) =
      10 * valOfDigitsAcc (10 * acc + digitVal c) t + digitVal d
    exact ih (10 * acc + digitVal c) d

theorem valOfDigitsAcc_natDigits :
    ∀ n acc, valOfDigitsAcc acc (natDigits n) =
      acc * 10 ^ (natDigits n).length + n := by
  intro n
  induction n using Nat.strong_induction_on with
  | _ n ih =>
    intro acc
    rw [natDigits_eq]
    by_cases h10 : n < 10
    · rw [if_pos h10]
      show 10 * acc + digitVal (digChar n) = acc * 10 ^ 1 + n
      rw [digitVal_digChar h10]
      ring
    · rw [if_neg h10]
      have hdiv : n / 10 < n := Nat.div_lt_self (by omega) (by omega)
      rw [valOfDigitsAcc_append, ih (n / 10) hdiv acc,
        digitVal_digChar (Nat.mod_lt n (by omega))]
      simp only [List.length_append, List.length_singleton]
      rw [pow_succ, ← mul_assoc]
      have hm := Nat.div_add_mod n 10
      generalize acc * 10 ^ (natDigits (n / 10)).length = Q
      omega

theorem spanDigits_append (ds rest : List Char)
    (hds : ∀ c ∈ ds, isDigitCh c = true)
    (hrest : ∀ ch, rest.head? = some ch → isDigitCh ch = false) :
    spanDigits (ds ++ rest) = (ds, rest) := by
  induction ds with
  | nil =>
    cases rest with
    | nil => rfl
    | cons r t =>
      have := hrest r rfl
      simp [spanDigits, this]
  | cons d ds ih =>
    have hd := hds d (List.mem_cons_self _ _)
    have ih' := ih (fun c hc => hds c (List.mem_cons_of_mem _ hc))
    show spanDigits (d :: (ds ++ rest)) = (d :: ds, rest)
    simp only [spanDigits, hd, if_true]
    rw [ih']

theorem parseNatTok_natDigits (n : Nat) (rest : List Char)
    (hrest : ∀ ch, rest.head? = some ch → isDigitCh ch = false) :
    parseNatTok (natDigits n ++ rest) = some (n, rest) := by
  by_cases hn : n = 0
  · subst hn
    have h0 : natDigits 0 = ['0'] := by rw [natDigits_eq]; rfl
    rw [h0]
    rfl
  · obtain ⟨c, t, heq, hd, hz⟩ := natDigits_head_pos n (by omega)
    rw [heq]
    simp only [List.cons_append, parseNatTok, hz, if_false, hd, if_true]
    have hts : spanDigits (t ++ rest) = (t, rest) :=
      spanDigits_append t rest
        (fun ch hch => natDigits_all_digits n ch (by rw [heq]; right; exact hch))
        hrest
    rw [hts]
    have hv : valOfDigitsAcc (digitVal c) t = n := by
      have h1 : valOfDigitsAcc 0 (natDigits n) = n := by
        rw [valOfDigitsAcc_natDigits]
        omega
      rw [heq] at h1
      have h2 : valOfDigitsAcc (10 * 0 + digitVal c) t = n := h1
      simpa using h2
    rw [hv]

/-! ### Claim C6: string escape lemmas -/

theorem hexDigVal_hexDig {m : Nat} (hm : m < 16) : hexDigVal (hexDig m) = some m := by
  interval_cases m <;> decide

theorem parseStringBody_quote (rest : List Char) :
    parseStringBody ('"' :: rest) = some ([], rest) := by
  rw [parseStringBody.eq_def]
  dsimp only
  rw [if_pos rfl]

theorem parseStringBody_escQuote (l : List Char) :
    parseStringBody ('\\' :: '"' :: l) = consStr '"' (parseStringBody l) := by
  rw [parseStringBody.eq_def]
  dsimp only
  rw [if_neg (by decide), if_pos rfl, if_pos rfl]

theorem parseStringBody_escBack (l : List Char) :
    parseStringBody ('\\' :: '\\' :: l) = consStr '\\' (parseStringBody l) := by
  rw [parseStringBody.eq_def]
  dsimp only
  rw [if_neg (by decide), if_pos rfl, if_neg (by decide), if_pos rfl]

theorem parseStringBody_escU (h1 h2 h3 h4 : Char) (l : List Char) :
    parseStringBody ('\\' :: 'u' :: h1 :: h2 :: h3 :: h4 :: l) =
      ((hexDigVal h1).bind fun v1 =>
        (hexDigVal h2).bind fun v2 =>
          (hexDigVal h3).bind fun v3 =>
            (hexDigVal h4).bind fun v4 =>
              consStr (Char.ofNat (((v1 * 16 + v2) * 16 + v3) * 16 + v4))
                (parseStringBody l)) := by
  rw [parseStringBody.eq_def]
  dsimp only
  rw [if_neg (by decide), if_pos rfl, if_neg (by decide), if_neg (by decide),
    if_neg (by decide), if_neg (by decide), if_neg (by decide),
    if_neg (by decide), if_neg (by decide), if_neg (by decide), if_pos rfl]

theorem parseStringBody_lit (c : Char) (l : List Char) (hq : c ≠ '"')
    (hb : c ≠ '\\') (hc : ¬ c.toNat < 32) :
    parseStringBody (c :: l) = consStr c (parseStringBody l) := by
  rw [parseStringBody.eq_def]
  dsimp only
  rw [if_neg hq, if_neg hb, if_neg hc]

theorem parseStringBody_ser :
    ∀ (cs : List Char) (rest : List Char),
      parseStringBody (serStrBody cs ++ ('"' :: rest)) = some (cs, rest) := by
  intro cs
  induction cs with
  | nil =>
    intro rest
    show parseStringBody ('"' :: rest) = some ([], rest)
    exact parseStringBody_quote rest
  | cons c cs ih =>
    intro rest
    have hser : serStrBody (c :: cs) ++ ('"' :: rest) =
        escChar c ++ (serStrBody cs ++ ('"' :: rest)) := by
      show (escChar c ++ serStrBody cs) ++ ('"' :: rest) = _
      rw [List.append_assoc]
    rw [hser]
    by_cases hq : c = '"'
    · subst hq
      show parseStringBody ('\\' :: '"' :: (serStrBody cs ++ ('"' :: rest))) =
        some ('"' :: cs, rest)
      rw [parseStringBody_escQuote, ih]
      rfl
    · by_cases hb : c = '\\'
      · subst hb
        show parseStringBody ('\\' :: '\\' :: (serStrBody cs ++ ('"' :: rest))) =
          some ('\\' :: cs, rest)
        rw [parseStringBody_escBack, ih]
        rfl
      · by_cases hc : c.toNat < 32
        · have hesc : escChar c =
              ['\\', 'u', '0', '0', hexDig (c.toNat / 16), hexDig (c.toNat % 16)] := by
            unfold escChar
            rw [if_neg hq, if_neg hb, if_pos hc]
          rw [hesc]
          show parseStringBody ('\\' :: 'u' :: '0' :: '0' ::
              hexDig (c.toNat / 16) :: hexDig (c.toNat % 16) ::
              (serStrBody cs ++ ('"' :: rest))) = some (c :: cs, rest)
          rw [parseStringBody_escU]
          rw [show hexDigVal '0' = some 0 from rfl]
          rw [hexDigVal_hexDig (by omega), hexDigVal_hexDig (Nat.mod_lt _ (by omega))]
          simp only [Option.some_bind]
          rw [ih]
          have hcv : ((0 * 16 + 0) * 16 + c.toNat / 16) * 16 + c.toNat % 16 =
              c.toNat := by
            have := Nat.div_add_mod c.toNat 16
            omega
          rw [hcv, Char.ofNat_toNat]
          rfl
        · have hesc : escChar c = [c] := by
            unfold escChar
            rw [if_neg hq, if_neg hb, if_neg hc]
          rw [hesc]
          show parseStringBody (c :: (serStrBody cs ++ ('"' :: rest))) =
            some (c :: cs, rest)
          rw [parseStringBody_lit c _ hq hb hc, ih]
          rfl

theorem stringMk_toList (s : String) : String.mk s.toList = s := rfl

/-! ### Claim C6: head shapes of serialized values -/

theorem skipWs_cons {c : Char} (t : List Char) (h : jsonWs c = false) :
    skipWs (c :: t) = c :: t := by
  rw [skipWs]
  rw [if_neg (by simp [h])]

theorem digit_ne {c : Char} (h : isDigitCh c = true) (d : Char)
    (hd : isDigitCh d = false) : c ≠ d := by
  intro heq
  rw [heq, hd] at h
  exact absurd h (by decide)

theorem digit_not_jsonWs {c : Char} (h : isDigitCh c = true) :
    jsonWs c = false := by
  by_contra hw
  rw [Bool.not_eq_false, jsonWs] at hw
  simp only [Bool.or_eq_true, decide_eq_true_eq] at hw
  rcases hw with ((hc | hc) | hc) | hc <;> (rw [hc] at h; exact absurd h (by decide))

theorem digit_not_pySpace {c : Char} (h : isDigitCh c = true) :
    pySpace c = false := by
  by_contra hw
  rw [Bool.not_eq_false, pySpace] at hw
  simp only [Bool.or_eq_true, decide_eq_true_eq] at hw
  rcases hw with ((((hc | hc) | hc) | hc) | hc) | hc <;>
    (rw [hc] at h; exact absurd h (by decide))

theorem natDigits_head_digit (m : Nat) :
    ∃ c t, natDigits m = c :: t ∧ isDigitCh c = true := by
  by_cases hm : m = 0
  · subst hm
    exact ⟨'0', [], by rw [natDigits_eq]; rfl, by decide⟩
  · obtain ⟨c, t, heq, hd, _⟩ := natDigits_head_pos m (by omega)
    exact ⟨c, t, heq, hd⟩

theorem serInt_head (n : Int) :
    ∃ c t, serInt n = c :: t ∧ (c = '-' ∨ isDigitCh c = true) := by
  by_cases hn : n < 0
  · exact ⟨'-', natDigits (-n).toNat, by rw [serInt, if_pos hn], Or.inl rfl⟩
  · obtain ⟨c, t, heq, hd⟩ := natDigits_head_digit n.toNat
    exact ⟨c, t, by rw [serInt, if_neg hn, heq], Or.inr hd⟩

theorem serA_head (vs : List Json) :
    ∃ c t, serA vs = c :: t ∧ (c = ']' ∨ c = ',') := by
  cases vs with
  | nil => exact ⟨']', [], by rw [serA], Or.inl rfl⟩
  | cons v vs => exact ⟨',', serJ v ++ serA vs, by rw [serA], Or.inr rfl⟩

theorem serT_head (ms : List (String × Json)) :
    ∃ c t, serT ms = c :: t ∧ (c = Char.ofNat 125 ∨ c = ',') := by
  cases ms with
  | nil => exact ⟨Char.ofNat 125, [], by rw [serT], Or.inl rfl⟩
  | cons m ms => exact ⟨',', serM m ms, by rw [serT], Or.inr rfl⟩

theorem serJ_head (x : Json) :
    ∃ c t, serJ x = c :: t ∧ (c = 'n' ∨ c = 't' ∨ c = 'f' ∨ c = '"'
      ∨ c = '[' ∨ c = Char.ofNat 123 ∨ c = '-' ∨ isDigitCh c = true) := by
  cases x with
  | null => exact ⟨'n', _, by rw [serJ]; rfl, by tauto⟩
  | bool b =>
    cases b with
    | true => exact ⟨'t', _, by rw [serJ]; rfl, by tauto⟩
    | false => exact ⟨'f', _, by rw [serJ]; rfl, by tauto⟩
  | num n =>
    obtain ⟨c, t, heq, hd⟩ := serInt_head n
    exact ⟨c, t, by rw [serJ]; exact heq, by tauto⟩
  | str s => exact ⟨'"', _, by rw [serJ]; rfl, by tauto⟩
  | arr vs =>
    cases vs with
    | nil => exact ⟨'[', _, by rw [serJ], by tauto⟩
    | cons v vs => exact ⟨'[', _, by rw [serJ], by tauto⟩
  | obj ms =>
    cases ms with
    | nil => exact ⟨Char.ofNat 123, _, by rw [serJ], by tauto⟩
    | cons m ms => exact ⟨Char.ofNat 123, _, by rw [serJ], by tauto⟩

theorem headChar_facts {c : Char}
    (h : c = 'n' ∨ c = 't' ∨ c = 'f' ∨ c = '"' ∨ c = '['
      ∨ c = Char.ofNat 123 ∨ c = '-' ∨ isDigitCh c = true) :
    jsonWs c = false ∧ c ≠ ']' ∧ c ≠ ',' ∧ c ≠ Char.ofNat 125 ∧ c ≠ ':'
      ∧ pySpace c = false := by
  rcases h with h | h | h | h | h | h | h | h
  all_goals first
  | (subst h; refine ⟨by decide, by decide, by decide, by decide, by decide, by decide⟩)
  | exact ⟨digit_not_jsonWs h, digit_ne h _ (by decide), digit_ne h _ (by decide),
      digit_ne h _ (by decide), digit_ne h _ (by decide), digit_not_pySpace h⟩

/-! ### Claim C6: one-step reductions of the fueled parser -/

theorem parseVal_null (fuel : Nat) (r : List Char) :
    parseVal (fuel + 1) ('n' :: 'u' :: 'l' :: 'l' :: r) = some (.null, r) := by
  rw [parseVal.eq_def]
  dsimp only
  rw [skipWs_cons _ (by decide)]
  dsimp only
  rw [if_pos rfl]
  rfl

theorem parseVal_true (fuel : Nat) (r : List Char) :
    parseVal (fuel + 1) ('t' :: 'r' :: 'u' :: 'e' :: r) = some (.bool true, r) := by
  rw [parseVal.eq_def]
  dsimp only
  rw [skipWs_cons _ (by decide)]
  dsimp only
  rw [if_neg (by decide), if_pos rfl]
  rfl

theorem parseVal_false (fuel : Nat) (r : List Char) :
    parseVal (fuel + 1) ('f' :: 'a' :: 'l' :: 's' :: 'e' :: r) =
      some (.bool false, r) := by
  rw [parseVal.eq_def]
  dsimp only
  rw [skipWs_cons _ (by decide)]
  dsimp only
  rw [if_neg (by decide), if_neg (by decide), if_pos rfl]
  rfl

theorem parseVal_str (fuel : Nat) (t : List Char) :
    parseVal (fuel + 1) ('"' :: t) =
      (parseStringBody t).map (fun p => (.str (String.mk p.1), p.2)) := by
  rw [parseVal.eq_def]
  dsimp only
  rw [skipWs_cons _ (by decide)]
  dsimp only
  rw [if_neg (by decide), if_neg (by decide), if_neg (by decide), if_pos rfl]

theorem parseVal_arrNil (fuel : Nat) (r : List Char) :
    parseVal (fuel + 1) ('[' :: ']' :: r) = some (.arr [], r) := by
  rw [parseVal.eq_def]
  dsimp only
  rw [skipWs_cons _ (by decide)]
  dsimp only
  rw [if_neg (by decide), if_neg (by decide), if_neg (by decide),
    if_neg (by decide), if_pos rfl]
  rw [skipWs_cons _ (by decide)]
  rfl

theorem parseVal_arrCons (fuel : Nat) (c2 : Char) (t2 : List Char)
    (hw : jsonWs c2 = false) (hne : c2 ≠ ']') :
    parseVal (fuel + 1) ('[' :: c2 :: t2) =
      (match parseVal fuel (c2 :: t2) with
        | none => none
        | some (v, r) =>
          match parseArrTail fuel r with
          | none => none
          | some (vs, r2) => some (.arr (v :: vs), r2)) := by
  rw [parseVal.eq_def]
  dsimp only
  rw [skipWs_cons _ (by decide)]
  dsimp only
  rw [if_neg (by decide), if_neg (by decide), if_neg (by decide),
    if_neg (by decide), if_pos rfl]
  rw [skipWs_cons _ hw]
  split
  · rename_i r1 heq
    injection heq with h1 h2
    exact absurd h1 hne
  · rfl

theorem parseVal_objNil (fuel : Nat) (r : List Char) :
    parseVal (fuel + 1) (Char.ofNat 123 :: Char.ofNat 125 :: r) =
      some (.obj [], r) := by
  rw [parseVal.eq_def]
  dsimp only
  rw [skipWs_cons _ (by decide)]
  dsimp only
  rw [if_neg (by decide), if_neg (by decide), if_neg (by decide),
    if_neg (by decide), if_neg (by decide), if_pos rfl]
  rw [skipWs_cons _ (by decide)]
  dsimp only
  rw [if_pos rfl]

theorem parseVal_objCons (fuel : Nat) (c2 : Char) (t2 : List Char)
    (hw : jsonWs c2 = false) (hne : c2 ≠ Char.ofNat 125) :
    parseVal (fuel + 1) (Char.ofNat 123 :: c2 :: t2) =
      (match parseMember fuel (c2 :: t2) with
        | none => none
        | some (ms, r2) => some (.obj ms, r2)) := by
  rw [parseVal.eq_def]
  dsimp only
  rw [skipWs_cons _ (by decide)]
  dsimp only
  rw [if_neg (by decide), if_neg (by decide), if_neg (by decide),
    if_neg (by decide), if_neg (by decide), if_pos rfl]
  rw [skipWs_cons _ hw]
  dsimp only
  rw [if_neg hne]

theorem parseVal_num (fuel : Nat) (c : Char) (t : List Char)
    (hd : c = '-' ∨ isDigitCh c = true)
    (hn : c ≠ 'n') (ht : c ≠ 't') (hf : c ≠ 'f') (hq : c ≠ '"')
    (hb : c ≠ '[') (ho : c ≠ Char.ofNat 123) (hw : jsonWs c = false) :
    parseVal (fuel + 1) (c :: t) =
      (parseNumber (c :: t)).map (fun p => (.num p.1, p.2)) := by
  rw [parseVal.eq_def]
  dsimp only
  rw [skipWs_cons _ hw]
  dsimp only
  rw [if_neg hn, if_neg ht, if_neg hf, if_neg hq, if_neg hb, if_neg ho]
  rw [if_pos (by rcases hd with h | h <;> simp [h])]

theorem parseArrTail_close (fuel : Nat) (r : List Char) :
    parseArrTail (fuel + 1) (']' :: r) = some ([], r) := by
  rw [parseArrTail.eq_def]
  dsimp only
  rw [skipWs_cons _ (by decide)]
  rfl

theorem parseArrTail_comma (fuel : Nat) (r : List Char) :
    parseArrTail (fuel + 1) (',' :: r) =
      (match parseVal fuel r with
        | none => none
        | some (v, r2) =>
          (parseArrTail fuel r2).map (fun p => (v :: p.1, p.2))) := by
  rw [parseArrTail.eq_def]
  dsimp only
  rw [skipWs_cons _ (by decide)]
  rfl

theorem parseMember_str (fuel : Nat) (t : List Char) :
    parseMember (fuel + 1) ('"' :: t) =
      (match parseStringBody t with
        | none => none
        | some (k, r) =>
          match skipWs r with
          | ':' :: r2 =>
            (match parseVal fuel r2 with
              | none => none
              | some (v, r3) =>
                match parseObjTail fuel r3 with
                | none => none
                | some (ms, r4) => some ((String.mk k, v) :: ms, r4))
          | _ => none) := by
  rw [parseMember.eq_def]
  dsimp only
  rw [skipWs_cons _ (by decide)]
  rfl

theorem parseObjTail_close (fuel : Nat) (r : List Char) :
    parseObjTail (fuel + 1) (Char.ofNat 125 :: r) = some ([], r) := by
  rw [parseObjTail.eq_def]
  dsimp only
  rw [skipWs_cons _ (by decide)]
  rfl

theorem parseObjTail_comma (fuel : Nat) (r : List Char) :
    parseObjTail (fuel + 1) (',' :: r) = parseMember fuel r := by
  rw [parseObjTail.eq_def]
  dsimp only
  rw [skipWs_cons _ (by decide)]
  rfl

/-! ### Claim C6: the round-trip of the serializer through the parser -/

theorem sizeJ_pos (x : Json) : 1 ≤ sizeJ x := by
  rcases x with _ | b | n | s | (_ | ⟨v, vs⟩) | (_ | ⟨m, ms⟩) <;> rw [sizeJ] <;> omega

theorem sizeA_pos (vs : List Json) : 1 ≤ sizeA vs := by
  cases vs <;> rw [sizeA] <;> omega

theorem sizeM_pos (m : String × Json) (ms : List (String × Json)) :
    1 ≤ sizeM m ms := by
  obtain ⟨k, v⟩ := m
  rw [sizeM]
  omega

theorem sizeT_pos (ms : List (String × Json)) : 1 ≤ sizeT ms := by
  cases ms <;> rw [sizeT] <;> omega

theorem serM_head (m : String × Json) (ms : List (String × Json)) :
    ∃ t, serM m ms = '"' :: t := by
  obtain ⟨k, v⟩ := m
  refine ⟨(serStrBody k.toList ++ ['"']) ++ (':' :: (serJ v ++ serT ms)), ?_⟩
  rw [serM, serStr]
  rfl

theorem serA_head_not_digit (vs : List Json) (rest : List Char) :
    ∀ ch, (serA vs ++ rest).head? = some ch → isDigitCh ch = false := by
  obtain ⟨c, t, heq, hor⟩ := serA_head vs
  rw [heq]
  intro ch hch
  simp only [List.cons_append, List.head?_cons, Option.some.injEq] at hch
  rw [← hch]
  rcases hor with h | h <;> (rw [h]; decide)

theorem serT_head_not_digit (ms : List (String × Json)) (rest : List Char) :
    ∀ ch, (serT ms ++ rest).head? = some ch → isDigitCh ch = false := by
  obtain ⟨c, t, heq, hor⟩ := serT_head ms
  rw [heq]
  intro ch hch
  simp only [List.cons_append, List.head?_cons, Option.some.injEq] at hch
  rw [← hch]
  rcases hor with h | h <;> (rw [h]; decide)

theorem parse_ser : ∀ fuel : Nat,
    (∀ (x : Json) (rest : List Char), sizeJ x ≤ fuel →
      (∀ n, x = Json.num n → ∀ ch, rest.head? = some ch → isDigitCh ch = false) →
      parseVal fuel (serJ x ++ rest) = some (x, rest))
    ∧ (∀ (vs : List Json) (rest : List Char), sizeA vs ≤ fuel →
      parseArrTail fuel (serA vs ++ rest) = some (vs, rest))
    ∧ (∀ (m : String × Json) (ms : List (String × Json)) (rest : List Char),
      sizeM m ms ≤ fuel →
      parseMember fuel (serM m ms ++ rest) = some (m :: ms, rest))
    ∧ (∀ (ms : List (String × Json)) (rest : List Char), sizeT ms ≤ fuel →
      parseObjTail fuel (serT ms ++ rest) = some (ms, rest)) := by
  intro fuel
  induction fuel with
  | zero =>
    refine ⟨fun x rest hsz _ => absurd hsz (by have := sizeJ_pos x; omega),
      fun vs rest hsz => absurd hsz (by have := sizeA_pos vs; omega),
      fun m ms rest hsz => absurd hsz (by have := sizeM_pos m ms; omega),
      fun ms rest hsz => absurd hsz (by have := sizeT_pos ms; omega)⟩
  | succ fuel ih =>
    obtain ⟨ihJ, ihA, ihM, ihT⟩ := ih
    refine ⟨?_, ?_, ?_, ?_⟩
    · intro x rest hsz hng
      cases x with
      | null =>
        rw [show serJ .null = ['n', 'u', 'l', 'l'] from by rw [serJ]; rfl]
        exact parseVal_null fuel rest
      | bool b =>
        cases b with
        | true =>
          rw [show serJ (.bool true) = ['t', 'r', 'u', 'e'] from by rw [serJ]; rfl]
          exact parseVal_true fuel rest
        | false =>
          rw [show serJ (.bool false) = ['f', 'a', 'l', 's', 'e'] from by rw [serJ]; rfl]
          exact parseVal_false fuel rest
      | num n =>
        rw [show serJ (.num n) = serInt n from by rw [serJ]]
        by_cases hneg : n < 0
        · rw [show serInt n = '-' :: natDigits (-n).toNat from by
            rw [serInt, if_pos hneg]]
          rw [show ('-' :: natDigits (-n).toNat) ++ rest =
            '-' :: (natDigits (-n).toNat ++ rest) from rfl]
          rw [parseVal_num fuel '-' _ (Or.inl rfl) (by decide) (by decide)
            (by decide) (by decide) (by decide) (by decide) (by decide)]
          rw [show parseNumber ('-' :: (natDigits (-n).toNat ++ rest)) =
            (parseNatTok (natDigits (-n).toNat ++ rest)).map
              (fun p => (-(p.1 : Int), p.2)) from rfl]
          rw [parseNatTok_natDigits _ _ (hng n rfl)]
          simp only [Option.map_some']
          have hcast : (((-n).toNat : Int)) = -n := Int.toNat_of_nonneg (by omega)
          rw [hcast]
          simp
        · rw [show serInt n = natDigits n.toNat from by rw [serInt, if_neg hneg]]
          obtain ⟨c, t, heq, hd⟩ := natDigits_head_digit n.toNat
          rw [heq]
          rw [show (c :: t) ++ rest = c :: (t ++ rest) from rfl]
          rw [parseVal_num fuel c _ (Or.inr hd) (digit_ne hd _ (by decide))
            (digit_ne hd _ (by decide)) (digit_ne hd _ (by decide))
            (digit_ne hd _ (by decide)) (digit_ne hd _ (by decide))
            (digit_ne hd _ (by decide)) (digit_not_jsonWs hd)]
          have hpn : parseNumber (c :: (t ++ rest)) =
              (parseNatTok (c :: (t ++ rest))).map
                (fun p => ((p.1 : Int), p.2)) := by
            rw [parseNumber.eq_def]
            split
            · rename_i rest1 heq2
              injection heq2 with hh1 hh2
              exact absurd hh1 (digit_ne hd '-' (by decide))
            · rfl
          rw [hpn]
          rw [show c :: (t ++ rest) = natDigits n.toNat ++ rest from by
            rw [heq]; rfl]
          rw [parseNatTok_natDigits _ _ (hng n rfl)]
          simp only [Option.map_some']
          have hcast : ((n.toNat : Int)) = n := Int.toNat_of_nonneg (by omega)
          rw [hcast]
      | str s =>
        rw [show serJ (.str s) = '"' :: (serStrBody s.toList ++ ['"']) from by
          rw [serJ, serStr]; rfl]
        rw [show ('"' :: (serStrBody s.toList ++ ['"'])) ++ rest =
          '"' :: (serStrBody s.toList ++ ('"' :: rest)) from by simp]
        rw [parseVal_str, parseStringBody_ser]
        simp only [Option.map_some']
        rw [stringMk_toList]
      | arr vs =>
        cases vs with
        | nil =>
          rw [show serJ (.arr []) = ['[', ']'] from by rw [serJ]]
          exact parseVal_arrNil fuel rest
        | cons v vs =>
          have hsz' : sizeJ v ≤ fuel ∧ sizeA vs ≤ fuel := by
            rw [show sizeJ (.arr (v :: vs)) = 1 + sizeJ v + sizeA vs from by
              rw [sizeJ]] at hsz
            omega
          rw [show serJ (.arr (v :: vs)) = '[' :: (serJ v ++ serA vs) from by
            rw [serJ]]
          rw [show ('[' :: (serJ v ++ serA vs)) ++ rest =
            '[' :: (serJ v ++ (serA vs ++ rest)) from by simp]
          obtain ⟨c2, t2, hv, hok⟩ := serJ_head v
          have hf := headChar_facts hok
          rw [hv, List.cons_append]
          rw [parseVal_arrCons fuel c2 _ hf.1 hf.2.1]
          rw [← List.cons_append, ← hv]
          rw [ihJ v (serA vs ++ rest) hsz'.1
            (fun _ _ => serA_head_not_digit vs rest)]
          dsimp only
          rw [ihA vs rest hsz'.2]
      | obj ms =>
        cases ms with
        | nil =>
          rw [show serJ (.obj []) = [Char.ofNat 123, Char.ofNat 125] from by
            rw [serJ]]
          exact parseVal_objNil fuel rest
        | cons m ms =>
          have hsz' : sizeM m ms ≤ fuel := by
            rw [show sizeJ (.obj (m :: ms)) = 1 + sizeM m ms from by
              rw [sizeJ]] at hsz
            omega
          rw [show serJ (.obj (m :: ms)) = Char.ofNat 123 :: serM m ms from by
            rw [serJ]]
          rw [List.cons_append]
          obtain ⟨tm, hm⟩ := serM_head m ms
          rw [hm, List.cons_append]
          rw [parseVal_objCons fuel '"' _ (by decide) (by decide)]
          rw [← List.cons_append, ← hm]
          rw [ihM m ms rest hsz']
    · intro vs rest hsz
      cases vs with
      | nil =>
        rw [show serA [] = [']'] from by rw [serA]]
        exact parseArrTail_close fuel rest
      | cons v vs =>
        have hsz' : sizeJ v ≤ fuel ∧ sizeA vs ≤ fuel := by
          rw [show sizeA (v :: vs) = 1 + sizeJ v + sizeA vs from by
            rw [sizeA]] at hsz
          omega
        rw [show serA (v :: vs) = ',' :: (serJ v ++ serA vs) from by rw [serA]]
        rw [show (',' :: (serJ v ++ serA vs)) ++ rest =
          ',' :: (serJ v ++ (serA vs ++ rest)) from by simp]
        rw [parseArrTail_comma]
        rw [ihJ v (serA vs ++ rest) hsz'.1
          (fun _ _ => serA_head_not_digit vs rest)]
        dsimp only
        rw [ihA vs rest hsz'.2]
        rfl
    · intro m ms rest hsz
      obtain ⟨k, v⟩ := m
      have hsz' : sizeJ v ≤ fuel ∧ sizeT ms ≤ fuel := by
        rw [show sizeM (k, v) ms = 1 + sizeJ v + sizeT ms from by
          rw [sizeM]] at hsz
        omega
      rw [show serM (k, v) ms = serStr k ++ ':' :: (serJ v ++ serT ms) from by
        rw [serM]]
      rw [show serStr k = '"' :: (serStrBody k.toList ++ ['"']) from by
        rw [serStr]; rfl]
      rw [show (('"' :: (serStrBody k.toList ++ ['"'])) ++
          (':' :: (serJ v ++ serT ms))) ++ rest =
        '"' :: (serStrBody k.toList ++
          ('"' :: (':' :: (serJ v ++ (serT ms ++ rest))))) from by simp]
      rw [parseMember_str, parseStringBody_ser]
      dsimp only
      rw [skipWs_cons _ (by decide)]
      show (match parseVal fuel (serJ v ++ (serT ms ++ rest)) with
        | none => none
        | some (v2, r3) =>
          match parseObjTail fuel r3 with
          | none => none
          | some (ms2, r4) => some ((String.mk k.toList, v2) :: ms2, r4)) =
        some ((k, v) :: ms, rest)
      rw [ihJ v (serT ms ++ rest) hsz'.1
        (fun _ _ => serT_head_not_digit ms rest)]
      dsimp only
      rw [ihT ms rest hsz'.2]
      dsimp only
      rw [stringMk_toList]
    · intro ms rest hsz
      cases ms with
      | nil =>
        rw [show serT [] = [Char.ofNat 125] from by rw [serT]]
        exact parseObjTail_close fuel rest
      | cons m ms =>
        have hsz' : sizeM m ms ≤ fuel := by
          rw [show sizeT (m :: ms) = 1 + sizeM m ms from by rw [sizeT]] at hsz
          omega
        rw [show serT (m :: ms) = ',' :: serM m ms from by rw [serT]]
        rw [List.cons_append]
        rw [parseObjTail_comma]
        exact ihM m ms rest hsz'

theorem splitTB_nil : splitTB [] = none := rfl

theorem splitTB_one (a : Char) : splitTB [a] = none := rfl

theorem splitTB_two (a b : Char) : splitTB [a, b] = none := rfl

theorem splitTB_step (a b c : Char) (t : List Char) :
    splitTB (a :: b :: c :: t) =
      (if a = btk ∧ b = btk ∧ c = btk then some ([], t)
       else
        match splitTB (b :: c :: t) with
        | some p => some (a :: p.1, p.2)
        | none => none) := by
  rw [splitTB.eq_def]

theorem splitTB_boundary : ∀ (l : List Char), splitTB l = none →
    l.getLast? ≠ some btk →
    ∀ (r : List Char), splitTB (l ++ btk :: btk :: btk :: r) = some (l, r) := by
  intro l
  induction l with
  | nil =>
    intro _ _ r
    rw [List.nil_append, splitTB_step, if_pos ⟨rfl, rfl, rfl⟩]
  | cons a l ih =>
    intro hnone hlast r
    cases l with
    | nil =>
      have ha : a ≠ btk := by simpa using hlast
      rw [show ([a] ++ btk :: btk :: btk :: r) = a :: btk :: btk :: btk :: r
        from rfl]
      rw [splitTB_step, if_neg (fun h => ha h.1),
        splitTB_step, if_pos ⟨rfl, rfl, rfl⟩]
    | cons b l' =>
      cases l' with
      | nil =>
        have hb : b ≠ btk := by simpa using hlast
        rw [show ([a, b] ++ btk :: btk :: btk :: r) =
          a :: b :: btk :: btk :: btk :: r from rfl]
        rw [splitTB_step, if_neg (fun h => hb h.2.1),
          splitTB_step, if_neg (fun h => hb h.1),
          splitTB_step, if_pos ⟨rfl, rfl, rfl⟩]
      | cons c t =>
        rw [splitTB_step] at hnone
        have hcond : ¬(a = btk ∧ b = btk ∧ c = btk) := by
          intro h
          rw [if_pos h] at hnone
          exact Option.noConfusion hnone
        rw [if_neg hcond] at hnone
        have htail : splitTB (b :: c :: t) = none := by
          cases h : splitTB (b :: c :: t) with
          | none => rfl
          | some p => rw [h] at hnone; exact Option.noConfusion hnone
        have hlast' : (b :: c :: t).getLast? ≠ some btk := by
          simpa [List.getLast?_cons_cons] using hlast
        rw [show ((a :: b :: c :: t) ++ btk :: btk :: btk :: r) =
          a :: ((b :: c :: t) ++ btk :: btk :: btk :: r) from rfl]
        rw [show a :: ((b :: c :: t) ++ btk :: btk :: btk :: r) =
          a :: b :: c :: (t ++ btk :: btk :: btk :: r) from rfl]
        rw [splitTB_step, if_neg hcond]
        rw [show (b :: c :: (t ++ btk :: btk :: btk :: r)) =
          ((b :: c :: t) ++ btk :: btk :: btk :: r) from rfl]
        rw [ih htail hlast' r]

theorem splitTB_append_single : ∀ (l : List Char), splitTB l = none →
    ∀ (c : Char), c ≠ btk → splitTB (l ++ [c]) = none := by
  intro l
  induction l with
  | nil => intro _ c _; rw [List.nil_append, splitTB_one]
  | cons a l ih =>
    intro hnone c hc
    cases l with
    | nil => rw [show ([a] ++ [c]) = [a, c] from rfl, splitTB_two]
    | cons b l' =>
      cases l' with
      | nil =>
        rw [show ([a, b] ++ [c]) = a :: b :: c :: [] from rfl]
        rw [splitTB_step, if_neg (fun h => hc h.2.2), splitTB_two]
      | cons d t =>
        rw [splitTB_step] at hnone
        have hcond : ¬(a = btk ∧ b = btk ∧ d = btk) := by
          intro h
          rw [if_pos h] at hnone
          exact Option.noConfusion hnone
        rw [if_neg hcond] at hnone
        have htail : splitTB (b :: d :: t) = none := by
          cases h : splitTB (b :: d :: t) with
          | none => rfl
          | some p => rw [h] at hnone; exact Option.noConfusion hnone
        rw [show ((a :: b :: d :: t) ++ [c]) =
          a :: b :: d :: (t ++ [c]) from rfl]
        rw [splitTB_step, if_neg hcond]
        rw [show (b :: d :: (t ++ [c])) = ((b :: d :: t) ++ [c]) from rfl]
        rw [ih htail c hc]

theorem splitTB_cons_none (c : Char) (hc : c ≠ btk) (l : List Char)
    (hl : splitTB l = none) : splitTB (c :: l) = none := by
  cases l with
  | nil => rw [splitTB_one]
  | cons b l' =>
    cases l' with
    | nil => rw [splitTB_two]
    | cons d t =>
      rw [splitTB_step, if_neg (fun h => hc h.1), hl]

theorem natDigits_last_digit (m : Nat) :
    ∃ t c, natDigits m = t ++ [c] ∧ isDigitCh c = true := by
  obtain ⟨c0, t0, heq, _⟩ := natDigits_head_digit m
  have hne : natDigits m ≠ [] := by rw [heq]; exact List.cons_ne_nil _ _
  refine ⟨(natDigits m).dropLast, (natDigits m).getLast hne, ?_, ?_⟩
  · rw [List.dropLast_append_getLast hne]
  · exact natDigits_all_digits m _ (List.getLast_mem hne)

theorem serA_last (vs : List Json) : ∃ t, serA vs = t ++ [']'] := by
  induction vs with
  | nil => exact ⟨[], by rw [serA]; rfl⟩
  | cons v vs ih =>
    obtain ⟨t, ht⟩ := ih
    refine ⟨',' :: (serJ v ++ t), ?_⟩
    rw [serA, ht]
    simp

theorem serT_last (ms : List (String × Json)) :
    ∃ t, serT ms = t ++ [Char.ofNat 125] := by
  induction ms with
  | nil => exact ⟨[], by rw [serT]; rfl⟩
  | cons m ms ih =>
    obtain ⟨k, v⟩ := m
    obtain ⟨t, ht⟩ := ih
    refine ⟨',' :: (serStr k ++ ':' :: (serJ v ++ t)), ?_⟩
    rw [serT, serM, ht]
    simp

theorem serJ_last (x : Json) :
    ∃ t c, serJ x = t ++ [c] ∧ pySpace c = false := by
  cases x with
  | null => exact ⟨['n', 'u', 'l'], 'l', by rw [serJ]; rfl, by decide⟩
  | bool b =>
    cases b with
    | true => exact ⟨['t', 'r', 'u'], 'e', by rw [serJ]; rfl, by decide⟩
    | false => exact ⟨['f', 'a', 'l', 's'], 'e', by rw [serJ]; rfl, by decide⟩
  | num n =>
    by_cases hneg : n < 0
    · obtain ⟨t, c, ht, hd⟩ := natDigits_last_digit (-n).toNat
      refine ⟨'-' :: t, c, ?_, digit_not_pySpace hd⟩
      rw [serJ, serInt, if_pos hneg, ht]
      rfl
    · obtain ⟨t, c, ht, hd⟩ := natDigits_last_digit n.toNat
      refine ⟨t, c, ?_, digit_not_pySpace hd⟩
      rw [serJ, serInt, if_neg hneg, ht]
  | str s =>
    refine ⟨'"' :: serStrBody s.toList, '"', ?_, by decide⟩
    rw [serJ, serStr]
  | arr vs =>
    cases vs with
    | nil => exact ⟨['['], ']', by rw [serJ]; rfl, by decide⟩
    | cons v vs =>
      obtain ⟨t, ht⟩ := serA_last vs
      refine ⟨'[' :: (serJ v ++ t), ']', ?_, by decide⟩
      rw [serJ, ht]
      simp
  | obj ms =>
    cases ms with
    | nil => exact ⟨[Char.ofNat 123], Char.ofNat 125, by rw [serJ]; rfl, by decide⟩
    | cons m ms =>
      obtain ⟨k, v⟩ := m
      obtain ⟨t, ht⟩ := serT_last ms
      refine ⟨Char.ofNat 123 :: (serStr k ++ ':' :: (serJ v ++ t)),
        Char.ofNat 125, ?_, by decide⟩
      rw [serJ, serM, ht]
      simp

theorem serJ_head_not_pySpace (x : Json) :
    ∃ c t, serJ x = c :: t ∧ pySpace c = false := by
  obtain ⟨c, t, heq, hor⟩ := serJ_head x
  refine ⟨c, t, heq, ?_⟩
  rcases hor with h | h | h | h | h | h | h | h
  · rw [h]; decide
  · rw [h]; decide
  · rw [h]; decide
  · rw [h]; decide
  · rw [h]; decide
  · rw [h]; decide
  · rw [h]; decide
  · exact digit_not_pySpace h

theorem pyStrip_newline_serJ (x : Json) :
    pyStrip ('\n' :: (serJ x ++ ['\n'])) = serJ x := by
  obtain ⟨c, t, hh, hcs⟩ := serJ_head_not_pySpace x
  obtain ⟨t2, c2, hl, hls⟩ := serJ_last x
  rw [pyStrip]
  rw [List.dropWhile_cons, if_pos (by decide)]
  rw [show serJ x ++ ['\n'] = c :: (t ++ ['\n']) from by rw [hh]; rfl]
  rw [List.dropWhile_cons, if_neg (by rw [hcs]; exact Bool.false_ne_true)]
  rw [show c :: (t ++ ['\n']) = (serJ x ++ ['\n']) from by rw [hh]; rfl]
  rw [show (serJ x ++ ['\n']).reverse = '\n' :: (serJ x).reverse from by simp]
  rw [List.dropWhile_cons, if_pos (by decide)]
  rw [show (serJ x).reverse = c2 :: t2.reverse from by rw [hl]; simp]
  rw [List.dropWhile_cons, if_neg (by rw [hls]; exact Bool.false_ne_true)]
  rw [show c2 :: t2.reverse = (serJ x).reverse from by rw [hl]; simp]
  rw [List.reverse_reverse]

theorem size_le_len : ∀ N : Nat,
    (∀ x : Json, sizeJ x ≤ N → sizeJ x ≤ (serJ x).length)
    ∧ (∀ vs : List Json, sizeA vs ≤ N → sizeA vs ≤ (serA vs).length)
    ∧ (∀ (m : String × Json) (ms : List (String × Json)),
      sizeM m ms ≤ N → sizeM m ms ≤ (serM m ms).length)
    ∧ (∀ ms : List (String × Json), sizeT ms ≤ N → sizeT ms ≤ (serT ms).length)
    := by
  intro N
  induction N with
  | zero =>
    refine ⟨fun x h => absurd h (by have := sizeJ_pos x; omega),
      fun vs h => absurd h (by have := sizeA_pos vs; omega),
      fun m ms h => absurd h (by have := sizeM_pos m ms; omega),
      fun ms h => absurd h (by have := sizeT_pos ms; omega)⟩
  | succ N ih =>
    obtain ⟨ihJ, ihA, ihM, ihT⟩ := ih
    refine ⟨?_, ?_, ?_, ?_⟩
    · intro x hsz
      cases x with
      | null =>
        rw [show sizeJ .null = 1 from by rw [sizeJ]]
        rw [show serJ .null = ['n','u','l','l'] from by rw [serJ]; rfl]
        simp
      | bool b =>
        rw [show sizeJ (.bool b) = 1 from by rw [sizeJ]]
        cases b <;> simp [show serJ (.bool true) = ['t','r','u','e'] from by
          rw [serJ]; rfl, show serJ (.bool false) = ['f','a','l','s','e'] from by
          rw [serJ]; rfl]
      | num n =>
        rw [show sizeJ (.num n) = 1 from by rw [sizeJ]]
        rw [show serJ (.num n) = serInt n from by rw [serJ]]
        by_cases hneg : n < 0
        · rw [serInt, if_pos hneg]; simp
        · rw [serInt, if_neg hneg]
          obtain ⟨c, t, heq, _⟩ := natDigits_head_digit n.toNat
          rw [heq]; simp
      | str s =>
        rw [show sizeJ (.str s) = 1 from by rw [sizeJ]]
        rw [show serJ (.str s) = '"' :: (serStrBody s.toList ++ ['"']) from by
          rw [serJ, serStr]; rfl]
        simp
      | arr vs =>
        cases vs with
        | nil =>
          rw [show sizeJ (.arr []) = 1 from by rw [sizeJ]]
          rw [show serJ (.arr []) = ['[', ']'] from by rw [serJ]]
          simp
        | cons v vs =>
          rw [show sizeJ (.arr (v :: vs)) = 1 + sizeJ v + sizeA vs from by
            rw [sizeJ]] at hsz ⊢
          rw [show serJ (.arr (v :: vs)) = '[' :: (serJ v ++ serA vs) from by
            rw [serJ]]
          have h1 := ihJ v (by have := sizeA_pos vs; omega)
          have h2 := ihA vs (by have := sizeJ_pos v; omega)
          simp only [List.length_cons, List.length_append]
          omega
      | obj ms =>
        cases ms with
        | nil =>
          rw [show sizeJ (.obj []) = 1 from by rw [sizeJ]]
          rw [show serJ (.obj []) = [Char.ofNat 123, Char.ofNat 125] from by
            rw [serJ]]
          simp
        | cons m ms =>
          rw [show sizeJ (.obj (m :: ms)) = 1 + sizeM m ms from by
            rw [sizeJ]] at hsz ⊢
          rw [show serJ (.obj (m :: ms)) = Char.ofNat 123 :: serM m ms from by
            rw [serJ]]
          have h1 := ihM m ms (by omega)
          simp only [List.length_cons]
          omega
    · intro vs hsz
      cases vs with
      | nil =>
        rw [show sizeA ([] : List Json) = 1 from by rw [sizeA]]
        rw [show serA [] = [']'] from by rw [serA]]
        simp
      | cons v vs =>
        rw [show sizeA (v :: vs) = 1 + sizeJ v + sizeA vs from by
          rw [sizeA]] at hsz ⊢
        rw [show serA (v :: vs) = ',' :: (serJ v ++ serA vs) from by rw [serA]]
        have h1 := ihJ v (by have := sizeA_pos vs; omega)
        have h2 := ihA vs (by have := sizeJ_pos v; omega)
        simp only [List.length_cons, List.length_append]
        omega
    · intro m ms hsz
      obtain ⟨k, v⟩ := m
      rw [show sizeM (k, v) ms = 1 + sizeJ v + sizeT ms from by
        rw [sizeM]] at hsz ⊢
      rw [show serM (k, v) ms = serStr k ++ ':' :: (serJ v ++ serT ms) from by
        rw [serM]]
      have h1 := ihJ v (by have := sizeT_pos ms; omega)
      have h2 := ihT ms (by have := sizeJ_pos v; omega)
      have h3 : 1 ≤ (serStr k).length := by rw [serStr]; simp
      simp only [List.length_append, List.length_cons]
      omega
    · intro ms hsz
      cases ms with
      | nil =>
        rw [show sizeT ([] : List (String × Json)) = 1 from by rw [sizeT]]
        rw [show serT [] = [Char.ofNat 125] from by rw [serT]]
        simp
      | cons m ms =>
        rw [show sizeT (m :: ms) = 1 + sizeM m ms from by rw [sizeT]] at hsz ⊢
        rw [show serT (m :: ms) = ',' :: serM m ms from by rw [serT]]
        have h1 := ihM m ms (by omega)
        simp only [List.length_cons]
        omega

theorem loads_serJ (x : Json) : loads (serJ x) = some x := by
  have hsz : sizeJ x ≤ (serJ x).length :=
    (size_le_len (sizeJ x)).1 x (le_refl _)
  have h := (parse_ser ((serJ x).length + 1)).1 x [] (by omega)
    (fun n hn ch hch => by simp at hch)
  rw [List.append_nil] at h
  rw [loads, h]
  rfl

theorem findFence_fenced (x : Json) (pre post : List Char)
    (hpre : splitTB pre = none) (hlast : pre.getLast? ≠ some btk)
    (hser : splitTB (serJ x) = none) :
    findFence (pre ++ btk :: btk :: btk :: 'j' :: 's' :: 'o' :: 'n' :: '\n' ::
      (serJ x ++ '\n' :: btk :: btk :: btk :: post)) = some (serJ x) := by
  rw [findFence]
  rw [splitTB_boundary pre hpre hlast]
  dsimp only
  rw [show jsonTag ('j' :: 's' :: 'o' :: 'n' :: '\n' ::
    (serJ x ++ '\n' :: btk :: btk :: btk :: post)) = true from rfl]
  rw [if_pos rfl]
  rw [show ('j' :: 's' :: 'o' :: 'n' :: '\n' ::
    (serJ x ++ '\n' :: btk :: btk :: btk :: post)).drop 4 =
    '\n' :: (serJ x ++ '\n' :: btk :: btk :: btk :: post) from rfl]
  have hb : splitTB ('\n' :: (serJ x ++ ['\n'])) = none :=
    splitTB_cons_none '\n' (by decide) _
      (splitTB_append_single _ hser '\n' (by decide))
  have hbl : ('\n' :: (serJ x ++ ['\n'])).getLast? ≠ some btk := by
    rw [show '\n' :: (serJ x ++ ['\n']) = ('\n' :: serJ x) ++ ['\n'] from rfl]
    rw [List.getLast?_concat]
    simp only [ne_eq, Option.some.injEq]
    decide
  rw [show '\n' :: (serJ x ++ '\n' :: btk :: btk :: btk :: post) =
    ('\n' :: (serJ x ++ ['\n'])) ++ btk :: btk :: btk :: post from by simp]
  rw [splitTB_boundary _ hb hbl post]
  dsimp only
  rw [pyStrip_newline_serJ]

/-- C6 counterexample: the claim fails as stated.  First, prose is not
arbitrary: when the surrounding prose itself contains a triple-backtick
span (here an inline code span before the real fence), the fence regex of
_extract_json captures the wrong block, every fallback fails, and the
function raises (modelled as none) even though the serialized value 7
sits in a well-formed json-tagged fence.  Second, idempotence on valid
JSON fails: the valid JSON text consisting of one string literal whose
content contains a triple-backtick pair parses under json.loads to that
string, but _extract_json extracts the fenced interior and returns the
number 1 instead. -/
theorem extract_json_prose_fence_counterexample :
    extract_json (['s', 'e', 'e', ' ', btk, btk, btk, 'c', 'o', 'd', 'e',
        btk, btk, btk, ' ', 'f', 'i', 'r', 's', 't', '\n',
        btk, btk, btk, 'j', 's', 'o', 'n', '\n'] ++
      serJ (.num 7) ++ ['\n', btk, btk, btk]) = none
    ∧ loads ['"', btk, btk, btk, ' ', '1', ' ', btk, btk, btk, '"'] =
      some (.str (String.mk [btk, btk, btk, ' ', '1', ' ', btk, btk, btk]))
    ∧ extract_json ['"', btk, btk, btk, ' ', '1', ' ', btk, btk, btk, '"'] =
      some (.num 1) := by
  refine ⟨?_, ?_, ?_⟩
  · rw [show serJ (.num 7) = ['7'] from by rw [serJ]; rfl]
    rfl
  · rfl
  · rfl

/-- C6 (amended): for every JSON value x, if the prose before the fence
contains no triple-backtick and does not end in a backtick, and the
serialization of x contains no triple-backtick, then _extract_json applied
to prose, a json-tagged fenced block holding x serialized, and trailing
prose returns exactly x; and on input text that is already valid JSON and
contains no triple-backtick, _extract_json returns the value of that text
(idempotent round-trip). -/
theorem extract_json_fenced_roundtrip :
    (∀ (x : Json) (pre post : List Char),
      splitTB pre = none → pre.getLast? ≠ some btk → splitTB (serJ x) = none →
      extract_json (pre ++ btk :: btk :: btk :: 'j' :: 's' :: 'o' :: 'n' ::
        '\n' :: (serJ x ++ '\n' :: btk :: btk :: btk :: post)) = some x)
    ∧ (∀ (t : List Char) (v : Json), splitTB t = none → loads t = some v →
      extract_json t = some v) := by
  constructor
  · intro x pre post hpre hlast hser
    rw [extract_json]
    rw [findFence_fenced x pre post hpre hlast hser]
    rw [show (some (serJ x)).bind loads = loads (serJ x) from rfl]
    rw [loads_serJ]
  · intro t v ht hv
    rw [extract_json]
    rw [show findFence t = none from by rw [findFence, ht]]
    rw [show (Option.bind none loads : Option Json) = none from rfl]
    rw [hv]

/-- Witness for the amended C6 theorem at the concrete value 7, prose
before and after the fence, and at the plain JSON text 42. -/
theorem extract_json_fenced_roundtrip_witness :
    extract_json (['h', 'i', '\n'] ++ btk :: btk :: btk :: 'j' :: 's' :: 'o'
        :: 'n' :: '\n' ::
      (serJ (.num 7) ++ '\n' :: btk :: btk :: btk :: ['o', 'k'])) =
      some (.num 7)
    ∧ extract_json ['4', '2'] = some (.num 42) :=
  ⟨extract_json_fenced_roundtrip.1 (.num 7) ['h', 'i', '\n'] ['o', 'k'] rfl
      (by decide) (by rw [serJ]; rfl),
   extract_json_fenced_roundtrip.2 ['4', '2'] (.num 42) rfl rfl⟩
